import Mathlib

/-!
# Verification of the morse-pro timing decoder

A shallow embedding of the morse-pro repository's timing decoder and its
supporting speed-math utilities, together with proofs of the specified
properties.

Numbers are modelled as rationals (`ℚ`); JavaScript's `Math.round` is
modelled as `⌊x + 1/2⌋`; JavaScript strings are modelled as `List Char`;
a possibly-NaN numeric input is modelled as `Option ℚ` with `none`
standing for NaN.

Embedded source files:
* `morse-pro-wpm.js` (namespace `WPM` below),
* `morse-pro.js` (`text2morseH`, `prosign2morseH`, `tidyMorse`, `morse2text`),
* `morse-pro-decoder.js` (`MorseDecoder` and its operations),
* the `MorseAdaptiveDecoder` subclass of `morse-pro.js`'s sibling module
  (`addDecode` override).
-/

/-- JavaScript's `Math.round`: round half towards positive infinity. -/
def jround (q : ℚ) : ℚ := (⌊q + 1/2⌋ : ℤ)

namespace WPM

/-- `DITS_PER_WORD = 50` (dits in "PARIS "). -/
def DITS_PER_WORD : ℚ := 50

/-- `SPACES_IN_PARIS = 19`. -/
def SPACES_IN_PARIS : ℚ := 19

/-- `MS_IN_MINUTE = 60000`. -/
def MS_IN_MINUTE : ℚ := 60000

/-- `_ditLength(wpm)`: unrounded dit length in ms. -/
def ditLength_ (wpm : ℚ) : ℚ := (MS_IN_MINUTE / DITS_PER_WORD) / wpm

/-- `ditLength(wpm)`: dit length in ms, rounded. -/
def ditLength (wpm : ℚ) : ℚ := jround (ditLength_ wpm)

/-- `ratio(wpm, fwpm)`: the Farnsworth dit-length ratio
`(50·wpm − 31·fwpm) / (19·fwpm)`. -/
def ratio (wpm fwpm : ℚ) : ℚ :=
  (DITS_PER_WORD * wpm - (DITS_PER_WORD - SPACES_IN_PARIS) * fwpm) /
    (SPACES_IN_PARIS * fwpm)

/-- `_fditLength(wpm, fwpm)`: unrounded Farnsworth dit length. -/
def fditLength_ (wpm fwpm : ℚ) : ℚ := ditLength_ wpm * ratio wpm fwpm

/-- `fditLength(wpm, fwpm)`: Farnsworth dit length in ms, rounded. -/
def fditLength (wpm fwpm : ℚ) : ℚ := jround (fditLength_ wpm fwpm)

/-- `wpm(ditLen)`: speed in wpm for a given dit length. -/
def wpmOf (ditLen : ℚ) : ℚ := (MS_IN_MINUTE / DITS_PER_WORD) / ditLen

/-- `fwpm(wpm, r)`: Farnsworth speed for a given wpm and ratio. -/
def fwpmOf (wpm r : ℚ) : ℚ :=
  DITS_PER_WORD * wpm / (SPACES_IN_PARIS * r + (DITS_PER_WORD - SPACES_IN_PARIS))

theorem ratio_self (w : ℚ) (hw : w ≠ 0) : ratio w w = 1 := by
  unfold ratio DITS_PER_WORD SPACES_IN_PARIS
  field_simp
  ring

end WPM

/-- **C4**: for every `wpm > 0`, the Farnsworth dit length at
`fwpm = wpm` equals the plain dit length: `fditLength(wpm, wpm) ==
ditLength(wpm)` (exactly, hence in particular within rounding). -/
theorem fditLength_self_eq_ditLength (w : ℚ) (hw : 0 < w) :
    WPM.fditLength w w = WPM.ditLength w := by
  unfold WPM.fditLength WPM.ditLength WPM.fditLength_
  rw [WPM.ratio_self w (ne_of_gt hw), mul_one]

/-- Witness for C4 at `wpm = 20`. -/
theorem fditLength_self_eq_ditLength_witness :
    (0 : ℚ) < 20 ∧ WPM.fditLength 20 20 = WPM.ditLength 20 :=
  ⟨by norm_num, fditLength_self_eq_ditLength 20 (by norm_num)⟩

namespace Morse

/-- Whitespace test modelling JavaScript's `\s` on the characters that can
occur in this development (the ASCII whitespace characters). -/
def isWs (c : Char) : Bool :=
  c == ' ' || c == '\t' || c == '\n' || c == '\r' || c == '\x0b' || c == '\x0c'

/-- The `text2morseH` dictionary of `morse-pro.js`, in source order. -/
def text2morseH : List (List Char × List Char) :=
  [("A".toList, ".-".toList),
   ("B".toList, "-...".toList),
   ("C".toList, "-.-.".toList),
   ("D".toList, "-..".toList),
   ("E".toList, ".".toList),
   ("F".toList, "..-.".toList),
   ("G".toList, "--.".toList),
   ("H".toList, "....".toList),
   ("I".toList, "..".toList),
   ("J".toList, ".---".toList),
   ("K".toList, "-.-".toList),
   ("L".toList, ".-..".toList),
   ("M".toList, "--".toList),
   ("N".toList, "-.".toList),
   ("O".toList, "---".toList),
   ("P".toList, ".--.".toList),
   ("Q".toList, "--.-".toList),
   ("R".toList, ".-.".toList),
   ("S".toList, "...".toList),
   ("T".toList, "-".toList),
   ("U".toList, "..-".toList),
   ("V".toList, "...-".toList),
   ("W".toList, ".--".toList),
   ("X".toList, "-..-".toList),
   ("Y".toList, "-.--".toList),
   ("Z".toList, "--..".toList),
   ("1".toList, ".----".toList),
   ("2".toList, "..---".toList),
   ("3".toList, "...--".toList),
   ("4".toList, "....-".toList),
   ("5".toList, ".....".toList),
   ("6".toList, "-....".toList),
   ("7".toList, "--...".toList),
   ("8".toList, "---..".toList),
   ("9".toList, "----.".toList),
   ("0".toList, "-----".toList),
   (".".toList, ".-.-.-".toList),
   (",".toList, "--..--".toList),
   (":".toList, "---...".toList),
   ("?".toList, "..--..".toList),
   ("'".toList, ".----.".toList),
   ("-".toList, "-....-".toList),
   ("/".toList, "-..-.".toList),
   ("(".toList, "-.--.-".toList),
   (")".toList, "-.--.-".toList),
   ("\"".toList, ".-..-.".toList),
   ("@".toList, ".--.-.".toList),
   ("=".toList, "-...-".toList),
   (" ".toList, "/".toList)]

/-- The `prosign2morseH` dictionary of `morse-pro.js`, in source order. -/
def prosign2morseH : List (List Char × List Char) :=
  [("<AA>".toList, ".-.-".toList),
   ("<AR>".toList, ".-.-.".toList),
   ("<AS>".toList, ".-...".toList),
   ("<BK>".toList, "-...-.-".toList),
   ("<BT>".toList, "-...-".toList),
   ("<CL>".toList, "-.-..-..".toList),
   ("<CT>".toList, "-.-.-".toList),
   ("<DO>".toList, "-..---".toList),
   ("<KN>".toList, "-.--.".toList),
   ("<SK>".toList, "...-.-".toList),
   ("<VA>".toList, "...-.-".toList),
   ("<SN>".toList, "...-.".toList),
   ("<VE>".toList, "...-.".toList),
   ("<SOS>".toList, "...---...".toList)]

/-- Lookup in `morse2textH`.  The JS construction loop assigns
`morse2textH[text2morseH[text]] = text` for each text in source order, so
for a duplicated morse value the last written text wins; hence we search
the reversed table. -/
def morse2textLookup (m : List Char) : Option (List Char) :=
  (text2morseH.reverse.find? (fun p => p.2 == m)).map (fun p => p.1)

/-- Lookup in `morsepro2textH`, which is filled from `text2morseH` first
and `prosign2morseH` second (later writes win). -/
def morsepro2textLookup (m : List Char) : Option (List Char) :=
  ((text2morseH ++ prosign2morseH).reverse.find? (fun p => p.2 == m)).map (fun p => p.1)

/-- Drop trailing whitespace (the `\s+$` replacement). -/
def dropTrailingWs (l : List Char) : List Char :=
  (l.reverse.dropWhile isWs).reverse

/-- JS `String.trim` (the `^\s+|\s+$` replacement of the polyfill). -/
def jsTrim (l : List Char) : List Char := dropTrailingWs (l.dropWhile isWs)

/-- `replace(/\|/g, "/")`. -/
def unifySep (l : List Char) : List Char := l.map (fun c => if c = '|' then '/' else c)

/-- `replace(/\//g, " / ")`. -/
def spaceSeps (l : List Char) : List Char :=
  l.flatMap (fun c => if c = '/' then [' ', '/', ' '] else [c])

mutual

/-- `replace(/\s+/g, " ")`, scanning outside a whitespace run. -/
def squashWs : List Char → List Char
  | [] => []
  | c :: t => if isWs c then squashWsRun t else c :: squashWs t

/-- `replace(/\s+/g, " ")`, inside a whitespace run (a single `' '` is
pending for the run). -/
def squashWsRun : List Char → List Char
  | [] => [' ']
  | c :: t => if isWs c then squashWsRun t else ' ' :: c :: squashWs t

end

mutual

/-- `replace(/(\/ )+\//g, "/")` as a left-to-right scan: scanning state,
nothing pending. -/
def sqScan : List Char → List Char
  | [] => []
  | c :: t => if c = '/' then sqSlash t else c :: sqScan t

/-- `replace(/(\/ )+\//g, "/")`: a `"/"` has been read and is pending. -/
def sqSlash : List Char → List Char
  | [] => ['/']
  | c :: t =>
    if c = ' ' then sqRep t
    else if c = '/' then '/' :: sqSlash t
    else '/' :: c :: sqScan t

/-- `replace(/(\/ )+\//g, "/")`: one or more `"/ "` repetitions have been
read.  Whatever the repetition count, the regex semantics produce the same
output, so no count is tracked: if a `'/'` follows, the greedy match can
end there; otherwise the last repetition's `'/'` closes a match exactly
when there were two or more repetitions, and in both remaining cases the
emitted text is `"/ "` followed by a rescan. -/
def sqRep : List Char → List Char
  | [] => ['/', ' ']
  | c :: t => if c = '/' then sqRepSlash t else '/' :: ' ' :: c :: sqScan t

/-- After `("/ ")+` followed by `'/'`: a space continues the repetitions,
anything else closes the greedy match (replaced by `"/"`) and rescans
(the rescan of `'/' :: t` is inlined for structural recursion). -/
def sqRepSlash : List Char → List Char
  | [] => ['/']
  | c :: t =>
    if c = ' ' then sqRep t
    else if c = '/' then '/' :: sqSlash t
    else '/' :: c :: sqScan t

end

theorem sqScan_slash (t : List Char) : sqScan ('/' :: t) = sqSlash t := by
  rw [sqScan, if_pos rfl]

theorem sqScan_other (c : Char) (t : List Char) (hc : c ≠ '/') :
    sqScan (c :: t) = c :: sqScan t := by
  rw [sqScan, if_neg hc]

theorem sqSlash_space (t : List Char) : sqSlash (' ' :: t) = sqRep t := by
  rw [sqSlash, if_pos rfl]

theorem sqSlash_other (c : Char) (t : List Char) (hc : c ≠ ' ') :
    sqSlash (c :: t) =
      (if c = '/' then '/' :: sqSlash t else '/' :: c :: sqScan t) := by
  rw [sqSlash, if_neg hc]

theorem sqRep_slash (t : List Char) : sqRep ('/' :: t) = sqRepSlash t := by
  rw [sqRep, if_pos rfl]

theorem sqRep_other (c : Char) (t : List Char) (hc : c ≠ '/') :
    sqRep (c :: t) = '/' :: ' ' :: c :: sqScan t := by
  rw [sqRep, if_neg hc]

theorem sqRepSlash_space (t : List Char) : sqRepSlash (' ' :: t) = sqRep t := by
  rw [sqRepSlash, if_pos rfl]

/-- `tidyMorse` of `morse-pro.js`: the chain of normalising replacements. -/
def tidyMorse (m : List Char) : List Char :=
  (dropTrailingWs
    ((sqScan (squashWs (spaceSeps (unifySep (jsTrim m))))).dropWhile isWs)).map
      (fun c => if c = '_' then '-' else c)

/-- JS `split(" ")`: a space closes the current token; any other
character is prepended to the first token of the remainder (the
remainder of the split is never empty, so `headD`/`tail` implement the
usual cons-onto-first-token step). -/
def splitSp : List Char → List (List Char)
  | [] => [[]]
  | c :: t =>
    if c = ' ' then [] :: splitSp t
    else (c :: (splitSp t).headD []) :: (splitSp t).tail

/-- The result record of the translation functions of `morse-pro.js`. -/
structure TranslationResult where
  morse : List Char
  message : List Char
  hasError : Bool
deriving DecidableEq

/-- One token step of the `morse2text` loop. -/
def morse2textStep (useProsigns : Bool) (r : TranslationResult) (t : List Char) :
    TranslationResult :=
  match (if useProsigns then morsepro2textLookup t else morse2textLookup t) with
  | none => ⟨r.morse ++ '#' :: (t ++ ['#', ' ']), r.message ++ ['#'], true⟩
  | some c => ⟨r.morse ++ t ++ [' '], r.message ++ c, r.hasError⟩

/-- The final `ret.morse.slice(0, -1)` of `morse2text`. -/
def morse2textFinish (r : TranslationResult) : TranslationResult :=
  ⟨r.morse.dropLast, r.message, r.hasError⟩

/-- `morse2text(morse, useProsigns)` of `morse-pro.js`. -/
def morse2text (morse : List Char) (useProsigns : Bool := true) : TranslationResult :=
  if tidyMorse morse = [] then ⟨[], [], false⟩
  else
    morse2textFinish
      ((splitSp (tidyMorse morse)).foldl (morse2textStep useProsigns) ⟨[], [], false⟩)

end Morse

/-- The event passed to `messageCallback` when the decoder flushes. -/
structure MsgEvent where
  timings : List ℚ
  morse : List Char
  message : List Char
deriving DecidableEq

/-- The state of `MorseDecoder` from `morse-pro-decoder.js`.  The private
numeric fields `_wpm`, `_fwpm`, `_ditLen`, `_fditLen`, `_ditDahThreshold`
and `_dahSpaceThreshold` are rationals; the character labels stored in
`characters` are the JS strings `"."`, `"-"`, `""`, `" "`, `"/"` as
`List Char`. -/
structure MorseDecoder where
  wpm : ℚ
  fwpm : ℚ
  ditLen : ℚ
  fditLen : ℚ
  ditDahThreshold : ℚ
  dahSpaceThreshold : ℚ
  defaultWpm : ℚ
  defaultFwpm : ℚ
  noiseThreshold : ℚ
  unusedTimes : List ℚ
  timings : List ℚ
  characters : List (List Char)
  morse : List Char
  message : List Char
deriving DecidableEq

namespace MorseDecoder

/-- `updateThresholds()`. -/
def updateThresholds (s : MorseDecoder) : MorseDecoder :=
  { s with
    ditDahThreshold := (1 * s.ditLen + 3 * s.ditLen) / 2
    dahSpaceThreshold := (3 * s.fditLen + 7 * s.fditLen) / 2 }

/-- `set wpm(wpm)`; `none` models a NaN input. -/
def setWpm (v : Option ℚ) (s : MorseDecoder) : MorseDecoder :=
  let w := max (v.getD s.defaultWpm) 1
  let fw := if s.fwpm > w then w else s.fwpm
  updateThresholds { s with
    wpm := w
    fwpm := fw
    ditLen := WPM.ditLength w
    fditLen := WPM.fditLength w fw }

/-- `set fwpm(fwpm)`; `none` models a NaN input.  When the new Farnsworth
speed exceeds the current `wpm`, the `wpm` setter is invoked recursively,
exactly as in the source. -/
def setFwpm (v : Option ℚ) (s : MorseDecoder) : MorseDecoder :=
  let f := max (v.getD s.defaultFwpm) 1
  let s1 := { s with fwpm := f }
  let s2 := if s1.wpm < f then setWpm (some f) s1 else s1
  updateThresholds { s2 with
    ditLen := WPM.ditLength s2.wpm
    fditLen := WPM.fditLength s2.wpm s2.fwpm }

/-- `set ditLen(dit)`. -/
def setDitLen (d : ℚ) (s : MorseDecoder) : MorseDecoder :=
  let fd := if s.fditLen < d then d else s.fditLen
  let w := WPM.wpmOf d
  updateThresholds { s with
    ditLen := d
    fditLen := fd
    wpm := w
    fwpm := WPM.fwpmOf w (fd / d) }

/-- `set fditLen(fdit)`. -/
def setFditLen (f : ℚ) (s : MorseDecoder) : MorseDecoder :=
  let d := if s.ditLen > f then f else s.ditLen
  let w := WPM.wpmOf d
  updateThresholds { s with
    ditLen := d
    fditLen := f
    wpm := w
    fwpm := WPM.fwpmOf w (f / d) }

/-- The constructor's first assignment `this.wpm = wpm`, executed while
`_fwpm` is still `undefined` (so `_fwpm` is set to the new `wpm`). -/
def init (v : Option ℚ) : MorseDecoder :=
  let w := max (v.getD 20) 1
  updateThresholds
    { wpm := w
      fwpm := w
      ditLen := WPM.ditLength w
      fditLen := WPM.fditLength w w
      ditDahThreshold := 0
      dahSpaceThreshold := 0
      defaultWpm := 20
      defaultFwpm := 20
      noiseThreshold := 1
      unusedTimes := []
      timings := []
      characters := []
      morse := []
      message := [] }

/-- `new MorseDecoder(wpm, fwpm)`: `this.wpm = wpm; this.fwpm = fwpm`. -/
def new (w f : Option ℚ) : MorseDecoder := setFwpm f (init w)

/-- `addDecode(duration, character)` of the base class: record the
classified element. -/
def addDecode (s : MorseDecoder) (duration : ℚ) (character : List Char) : MorseDecoder :=
  { s with
    timings := s.timings ++ [duration]
    characters := s.characters ++ [character] }

/-- One iteration of the `timings2morse` loop. -/
def timings2morseStep (acc : MorseDecoder × List Char) (d : ℚ) : MorseDecoder × List Char :=
  let s := acc.1
  if 0 < d then
    let c := if d < s.ditDahThreshold then ['.'] else ['-']
    (s.addDecode d c, acc.2 ++ c)
  else
    let d' := -d
    let c := if d' < s.ditDahThreshold then []
             else if d' < s.dahSpaceThreshold then [' ']
             else ['/']
    (s.addDecode d' c, acc.2 ++ c)

/-- `timings2morse(times)`: classify every duration, recording each
element with `addDecode`, and return the concatenated morse fragment. -/
def timings2morse (s : MorseDecoder) (times : List ℚ) : MorseDecoder × List Char :=
  times.foldl timings2morseStep (s, [])

/-- The opening step of `flush()`: if the last decoded message character
is a space and the buffer starts with a silence, drop that silence
(`unusedTimes.shift()`).  JS index semantics: on an empty string or
buffer the comparisons are against `undefined` and fail. -/
def flushShift (s : MorseDecoder) : MorseDecoder :=
  if s.message.getLast?.getD 'x' = ' ' ∧ s.unusedTimes.head?.getD 0 < 0 then
    { s with unusedTimes := s.unusedTimes.tail }
  else s

/-- The body of `flush()` after the leading-silence trim: bail out on an
empty buffer, otherwise hold back a trailing short silence, classify, and
translate. -/
def flushCore (s : MorseDecoder) : MorseDecoder × Option MsgEvent :=
  match s.unusedTimes.getLast? with
  | none => (s, none)
  | some last =>
    let buf := if last < 0 ∧ -last < s.dahSpaceThreshold
               then s.unusedTimes.dropLast else s.unusedTimes
    let p := timings2morse s buf
    let t := (Morse.morse2text p.2 true).message
    ({ p.1 with
        morse := p.1.morse ++ p.2
        message := p.1.message ++ t
        unusedTimes := if last < 0 then [last] else [] },
     some ⟨buf, p.2, t⟩)

/-- `flush()`.  Returns the new state together with the event handed to
`messageCallback`, or `none` when the callback does not fire. -/
def flush (s0 : MorseDecoder) : MorseDecoder × Option MsgEvent :=
  flushCore (flushShift s0)

/-- `addTiming(duration)`.  Returns the new state and the event of the
internally triggered `flush`, if any. -/
def addTiming (s : MorseDecoder) (duration : ℚ) : MorseDecoder × Option MsgEvent :=
  if duration = 0 then (s, none)
  else
    let p : MorseDecoder × ℚ :=
      match s.unusedTimes.getLast? with
      | none => (s, duration)
      | some last =>
        if 0 < duration * last then
          ({ s with unusedTimes := s.unusedTimes.dropLast }, last + duration)
        else if |duration| ≤ s.noiseThreshold then
          ({ s with unusedTimes := s.unusedTimes.dropLast }, last - duration)
        else (s, duration)
    let s1 := { p.1 with unusedTimes := p.1.unusedTimes ++ [p.2] }
    if s1.ditDahThreshold ≤ -p.2 then flush s1 else (s1, none)

/-- Feed a list of timings through `addTiming`, keeping only the state. -/
def runTimings (s : MorseDecoder) (l : List ℚ) : MorseDecoder :=
  l.foldl (fun st d => (st.addTiming d).1) s

end MorseDecoder

/-- JS `Array.slice(-n)`: the last `n` elements — except that `-0` is `0`,
so `n = 0` yields the whole array. -/
def jsSliceLast {α : Type} (n : ℕ) (l : List α) : List α :=
  if n = 0 then l else l.drop (l.length - n)

/-- The state of `MorseAdaptiveDecoder`: the base decoder plus the two
sample windows (JS arrays that may hold `undefined` entries, hence lists
of `Option ℚ`) and the recalibration lock. -/
structure MorseAdaptiveDecoder extends MorseDecoder where
  bufferSize : ℕ
  ditLengths : List (Option ℚ)
  fditLengths : List (Option ℚ)
  lockSpeed : Bool
deriving DecidableEq

namespace MorseAdaptiveDecoder

/-- `new MorseAdaptiveDecoder(wpm, fwpm, bufferSize)`. -/
def new (w f : Option ℚ) (bufferSize : ℕ := 30) : MorseAdaptiveDecoder :=
  { toMorseDecoder := MorseDecoder.new w f
    bufferSize := bufferSize
    ditLengths := []
    fditLengths := []
    lockSpeed := false }

/-- The recalibration loop's weighted sums over one window, starting at
position `i`: a defined sample at position `j` contributes `sample·(j+1)`
to the first component and `j+1` to the second (`undefined` entries are
skipped, linear weighting). -/
def lwSums : ℕ → List (Option ℚ) → ℚ × ℚ
  | _, [] => (0, 0)
  | i, none :: t => lwSums (i + 1) t
  | i, some v :: t =>
    let p := lwSums (i + 1) t
    (v * ((i : ℚ) + 1) + p.1, ((i : ℚ) + 1) + p.2)

/-- The dit sample the adaptive `addDecode` switch derives from one
classified element: the duration for `"."`, a third of it for `"-"`, the
duration for the dit-space label, nothing otherwise (in particular a
word-space element leaves it `undefined`). -/
def ditSample (d : ℚ) (c : List Char) : Option ℚ :=
  if c = ".".toList then some d
  else if c = "-".toList then some (d / 3)
  else if c = "".toList then some d
  else none

/-- The Farnsworth-dit sample of the same switch: a third of the
duration for `" "`, nothing otherwise. -/
def fditSample (d : ℚ) (c : List Char) : Option ℚ :=
  if c = " ".toList then some (d / 3) else none

/-- The `addDecode(duration, character)` override of
`MorseAdaptiveDecoder`: record the element via the base class, derive a
dit / Farnsworth-dit sample, push it into the sliding windows
(`push` then `slice(-bufferSize)`), and, unless `lockSpeed` is set,
recompute the unit lengths from the linearly-weighted moving averages
(the JS loop runs `i` from `0` to `bufferSize - 1`, skipping `undefined`
entries, hence the `take bufferSize`). -/
def addDecode (s : MorseAdaptiveDecoder) (duration : ℚ) (character : List Char) :
    MorseAdaptiveDecoder :=
  let b0 := s.toMorseDecoder.addDecode duration character
  let s1 : MorseAdaptiveDecoder :=
    { s with
      toMorseDecoder := b0
      ditLengths := jsSliceLast s.bufferSize (s.ditLengths ++ [ditSample duration character])
      fditLengths :=
        jsSliceLast s.bufferSize (s.fditLengths ++ [fditSample duration character]) }
  if s1.lockSpeed then s1
  else
    let q := lwSums 0 (s1.ditLengths.take s1.bufferSize)
    let fq := lwSums 0 (s1.fditLengths.take s1.bufferSize)
    let s2 := if fq.2 ≠ 0 then
        { s1 with toMorseDecoder := MorseDecoder.setFditLen (fq.1 / fq.2) s1.toMorseDecoder }
      else s1
    if q.2 ≠ 0 then
      { s2 with toMorseDecoder := MorseDecoder.setDitLen (q.1 / q.2) s2.toMorseDecoder }
    else s2

end MorseAdaptiveDecoder

/-! ## Claim C1: classification of the flushed buffer -/

/-- Modelled from the spec's classification table (claim C1): the morse
character produced for one signed duration, by sign and magnitude against
the two thresholds.  (A zero duration is not covered by the claim.) -/
def specClassify (thrD thrS d : ℚ) : List Char :=
  if 0 < d ∧ d < thrD then ".".toList
  else if 0 < d ∧ thrD ≤ d then "-".toList
  else if d < 0 ∧ |d| < thrD then "".toList
  else if d < 0 ∧ thrD ≤ |d| ∧ |d| < thrS then " ".toList
  else if d < 0 ∧ thrS ≤ |d| then "/".toList
  else []

namespace MorseDecoder

theorem addDecode_ditDahThreshold (s : MorseDecoder) (d : ℚ) (c : List Char) :
    (s.addDecode d c).ditDahThreshold = s.ditDahThreshold := rfl

theorem addDecode_dahSpaceThreshold (s : MorseDecoder) (d : ℚ) (c : List Char) :
    (s.addDecode d c).dahSpaceThreshold = s.dahSpaceThreshold := rfl

/-- The character chosen by one `timings2morse` iteration agrees with the
spec's classification table on every non-zero duration. -/
theorem timings2morseStep_char (s : MorseDecoder) (acc : List Char) (d : ℚ) (hd : d ≠ 0) :
    (timings2morseStep (s, acc) d).2 =
      acc ++ specClassify s.ditDahThreshold s.dahSpaceThreshold d := by
  rcases lt_or_gt_of_ne hd with hneg | hpos
  · have h0 : ¬ (0 < d) := by linarith
    have habs : |d| = -d := abs_of_neg hneg
    simp only [timings2morseStep, specClassify, if_neg h0, habs]
    by_cases h1 : -d < s.ditDahThreshold
    · simp [h0, hneg, h1]
    · by_cases h2 : -d < s.dahSpaceThreshold
      · simp [h0, hneg, h1, h2, le_of_not_lt h1]
      · simp [h0, hneg, h1, h2, le_of_not_lt h1, le_of_not_lt h2]
  · have habs : ¬ d < 0 := by linarith
    simp only [timings2morseStep, specClassify, if_pos hpos]
    by_cases h1 : d < s.ditDahThreshold
    · simp [hpos, h1]
    · simp [hpos, h1, habs, le_of_not_lt h1]

theorem timings2morseStep_state (s : MorseDecoder) (acc : List Char) (d : ℚ) :
    (timings2morseStep (s, acc) d).1.ditDahThreshold = s.ditDahThreshold ∧
    (timings2morseStep (s, acc) d).1.dahSpaceThreshold = s.dahSpaceThreshold := by
  unfold timings2morseStep
  by_cases h : 0 < d <;> simp [h, addDecode_ditDahThreshold, addDecode_dahSpaceThreshold]

/-- The `timings2morse` loop, with an arbitrary accumulator: the emitted
fragment is the concatenation of the per-duration classifications. -/
theorem timings2morse_go (times : List ℚ) :
    ∀ (s : MorseDecoder) (acc : List Char), (∀ d ∈ times, d ≠ 0) →
      (times.foldl timings2morseStep (s, acc)).2 =
        acc ++ times.flatMap (specClassify s.ditDahThreshold s.dahSpaceThreshold) := by
  induction times with
  | nil => intro s acc _; simp
  | cons d t ih =>
    intro s acc h
    have hd : d ≠ 0 := h d (List.mem_cons_self d t)
    have ht : ∀ x ∈ t, x ≠ 0 := fun x hx => h x (List.mem_cons_of_mem d hx)
    have hstep := timings2morseStep_state s acc d
    rcases hp : timings2morseStep (s, acc) d with ⟨s', acc'⟩
    have hacc : acc' = acc ++ specClassify s.ditDahThreshold s.dahSpaceThreshold d := by
      have := timings2morseStep_char s acc d hd
      rw [hp] at this
      exact this
    have hthr1 : s'.ditDahThreshold = s.ditDahThreshold := by
      have := hstep.1; rw [hp] at this; exact this
    have hthr2 : s'.dahSpaceThreshold = s.dahSpaceThreshold := by
      have := hstep.2; rw [hp] at this; exact this
    calc (List.foldl timings2morseStep (s, acc) (d :: t)).2
        = (List.foldl timings2morseStep (s', acc') t).2 := by
          simp [List.foldl_cons, hp]
      _ = acc' ++ t.flatMap (specClassify s'.ditDahThreshold s'.dahSpaceThreshold) :=
          ih s' acc' ht
      _ = acc ++ (d :: t).flatMap (specClassify s.ditDahThreshold s.dahSpaceThreshold) := by
          rw [hacc, hthr1, hthr2, List.flatMap_cons, List.append_assoc]

theorem flushShift_ditDahThreshold (s : MorseDecoder) :
    (flushShift s).ditDahThreshold = s.ditDahThreshold := by
  unfold flushShift; split <;> rfl

theorem flushShift_dahSpaceThreshold (s : MorseDecoder) :
    (flushShift s).dahSpaceThreshold = s.dahSpaceThreshold := by
  unfold flushShift; split <;> rfl

end MorseDecoder

/-- **C1**: during `flush()`, every duration `d` of the trimmed buffer
(the `timings` carried by the emitted message event) is classified
against the decoder's two thresholds exactly as the spec's table says —
positive and below `ditDahThreshold` gives `"."`; positive otherwise
gives `"-"`; negative with magnitude below `ditDahThreshold` gives the
empty string; negative with magnitude in `[ditDahThreshold,
dahSpaceThreshold)` gives `" "`; negative with magnitude at least
`dahSpaceThreshold` gives `"/"` — and the emitted morse fragment is the
concatenation of these classifications in buffer order. -/
theorem flush_fragment_is_classification (s : MorseDecoder) (e : MsgEvent)
    (he : (MorseDecoder.flush s).2 = some e) (h0 : ∀ d ∈ e.timings, d ≠ 0) :
    e.morse = e.timings.flatMap
      (specClassify s.ditDahThreshold s.dahSpaceThreshold) := by
  unfold MorseDecoder.flush MorseDecoder.flushCore at he
  split at he
  · simp at he
  · simp only [Option.some.injEq] at he
    subst he
    simp only
    rw [show (MorseDecoder.timings2morse (MorseDecoder.flushShift s) _).2 =
          (List.foldl MorseDecoder.timings2morseStep (MorseDecoder.flushShift s, []) _).2
        from rfl,
      MorseDecoder.timings2morse_go _ _ _ h0,
      MorseDecoder.flushShift_ditDahThreshold,
      MorseDecoder.flushShift_dahSpaceThreshold]
    simp

/-- Witness for C1: a fresh 20 wpm decoder holding a single 60 ms tone
flushes it as a dit. -/
theorem flush_fragment_is_classification_witness :
    (MorseDecoder.flush
        (MorseDecoder.runTimings (MorseDecoder.new (some 20) (some 20)) [60])).2 =
      some ⟨[60], ".".toList, "E".toList⟩ ∧
    (⟨[60], ".".toList, "E".toList⟩ : MsgEvent).morse =
      (⟨[60], ".".toList, "E".toList⟩ : MsgEvent).timings.flatMap
        (specClassify
          (MorseDecoder.runTimings (MorseDecoder.new (some 20) (some 20)) [60]).ditDahThreshold
          (MorseDecoder.runTimings (MorseDecoder.new (some 20) (some 20)) [60]).dahSpaceThreshold) :=
  ⟨by with_unfolding_all decide,
   flush_fragment_is_classification _ _ (by with_unfolding_all decide)
     (by with_unfolding_all decide)⟩

/-! ## Claims C3 and C9: the speed setters -/

namespace MorseDecoder

theorem updateThresholds_wpm (s : MorseDecoder) : (updateThresholds s).wpm = s.wpm := rfl

theorem updateThresholds_fwpm (s : MorseDecoder) : (updateThresholds s).fwpm = s.fwpm := rfl

theorem setWpm_wpm (v : Option ℚ) (s : MorseDecoder) :
    (setWpm v s).wpm = max (v.getD s.defaultWpm) 1 := rfl

theorem setWpm_fwpm (v : Option ℚ) (s : MorseDecoder) :
    (setWpm v s).fwpm =
      (if s.fwpm > max (v.getD s.defaultWpm) 1 then max (v.getD s.defaultWpm) 1
       else s.fwpm) := rfl

end MorseDecoder

/-- The Farnsworth speed formula never exceeds the character speed when
the dit-length ratio is at least one. -/
theorem WPM.fwpmOf_le (w r : ℚ) (hw : 0 < w) (hr : 1 ≤ r) : WPM.fwpmOf w r ≤ w := by
  unfold WPM.fwpmOf WPM.DITS_PER_WORD WPM.SPACES_IN_PARIS
  have hden : (0 : ℚ) < 19 * r + (50 - 19) := by linarith
  rw [div_le_iff hden]
  nlinarith

/-- **C3**: the decoder keeps `fwpm ≤ wpm` at all times.  Setting `fwpm`
to a value above the current `wpm` raises `wpm` to that value; setting
`wpm` below the current `fwpm` lowers `fwpm` to that value; and each of
the four setters (`wpm`, `fwpm`, `ditLen`, `fditLen`) leaves the state
with `fwpm ≤ wpm` (for the unit-length setters, under the natural
positivity of the lengths involved). -/
theorem decoder_speed_invariant (s : MorseDecoder) (v w d f : ℚ) (u1 u2 : Option ℚ)
    (hv : 1 ≤ v) (hvw : s.wpm < v)
    (hw : 1 ≤ w) (hwf : w < s.fwpm)
    (hd : 0 < d) (hf : 0 < f) (hsd : 0 < s.ditLen) :
    ((MorseDecoder.setFwpm (some v) s).wpm = v ∧
     (MorseDecoder.setFwpm (some v) s).fwpm = v) ∧
    ((MorseDecoder.setWpm (some w) s).wpm = w ∧
     (MorseDecoder.setWpm (some w) s).fwpm = w) ∧
    (MorseDecoder.setWpm u1 s).fwpm ≤ (MorseDecoder.setWpm u1 s).wpm ∧
    (MorseDecoder.setFwpm u2 s).fwpm ≤ (MorseDecoder.setFwpm u2 s).wpm ∧
    (MorseDecoder.setDitLen d s).fwpm ≤ (MorseDecoder.setDitLen d s).wpm ∧
    (MorseDecoder.setFditLen f s).fwpm ≤ (MorseDecoder.setFditLen f s).wpm := by
  have hmaxv : max v 1 = v := max_eq_left hv
  have hmaxw : max w 1 = w := max_eq_left hw
  refine ⟨?_, ?_, ?_, ?_, ?_, ?_⟩
  · -- raising fwpm above wpm raises wpm
    unfold MorseDecoder.setFwpm
    simp only [Option.getD_some, hmaxv, MorseDecoder.updateThresholds_wpm,
      MorseDecoder.updateThresholds_fwpm]
    rw [if_pos (by simpa using hvw)]
    constructor
    · rw [MorseDecoder.setWpm_wpm]
      simpa using hmaxv
    · rw [MorseDecoder.setWpm_fwpm]
      simp [hmaxv]
  · -- lowering wpm below fwpm lowers fwpm
    rw [MorseDecoder.setWpm_wpm, MorseDecoder.setWpm_fwpm]
    simp only [Option.getD_some, hmaxw]
    exact ⟨trivial, if_pos hwf⟩
  · -- wpm setter preserves the invariant
    rw [MorseDecoder.setWpm_wpm, MorseDecoder.setWpm_fwpm]
    split
    · exact le_refl _
    · exact le_of_not_lt (by assumption)
  · -- fwpm setter preserves the invariant
    unfold MorseDecoder.setFwpm
    simp only [MorseDecoder.updateThresholds_wpm, MorseDecoder.updateThresholds_fwpm]
    set g := max (u2.getD s.defaultFwpm) 1 with hg
    split
    · rw [MorseDecoder.setWpm_wpm, MorseDecoder.setWpm_fwpm]
      simp only [Option.getD_some]
      split
      · exact le_refl _
      · exact le_of_not_lt (by assumption)
    · simpa using le_of_not_lt (by assumption)
  · -- ditLen setter preserves the invariant
    unfold MorseDecoder.setDitLen
    simp only [MorseDecoder.updateThresholds_wpm, MorseDecoder.updateThresholds_fwpm]
    have hw0 : 0 < WPM.wpmOf d := by
      unfold WPM.wpmOf WPM.MS_IN_MINUTE WPM.DITS_PER_WORD
      positivity
    refine WPM.fwpmOf_le _ _ hw0 ?_
    rw [le_div_iff hd, one_mul]
    split
    · exact le_refl _
    · exact le_of_not_lt (by assumption)
  · -- fditLen setter preserves the invariant
    unfold MorseDecoder.setFditLen
    simp only [MorseDecoder.updateThresholds_wpm, MorseDecoder.updateThresholds_fwpm]
    have hd0 : 0 < (if s.ditLen > f then f else s.ditLen) := by
      split
      · exact hf
      · exact hsd
    have hdf : (if s.ditLen > f then f else s.ditLen) ≤ f := by
      split
      · exact le_refl f
      · exact le_of_not_lt (by assumption)
    have hw0 : 0 < WPM.wpmOf (if s.ditLen > f then f else s.ditLen) := by
      unfold WPM.wpmOf WPM.MS_IN_MINUTE WPM.DITS_PER_WORD
      positivity
    refine WPM.fwpmOf_le _ _ hw0 ?_
    rw [le_div_iff hd0, one_mul]
    exact hdf

/-- Witness for C3 at a concrete decoder with `wpm = 20`, `fwpm = 10`. -/
theorem decoder_speed_invariant_witness :
    ((MorseDecoder.setFwpm (some 30) (MorseDecoder.new (some 20) (some 10))).wpm = 30 ∧
     (MorseDecoder.setFwpm (some 30) (MorseDecoder.new (some 20) (some 10))).fwpm = 30) ∧
    ((MorseDecoder.setWpm (some 5) (MorseDecoder.new (some 20) (some 10))).wpm = 5 ∧
     (MorseDecoder.setWpm (some 5) (MorseDecoder.new (some 20) (some 10))).fwpm = 5) ∧
    (MorseDecoder.setWpm none (MorseDecoder.new (some 20) (some 10))).fwpm ≤
      (MorseDecoder.setWpm none (MorseDecoder.new (some 20) (some 10))).wpm ∧
    (MorseDecoder.setFwpm none (MorseDecoder.new (some 20) (some 10))).fwpm ≤
      (MorseDecoder.setFwpm none (MorseDecoder.new (some 20) (some 10))).wpm ∧
    (MorseDecoder.setDitLen 50 (MorseDecoder.new (some 20) (some 10))).fwpm ≤
      (MorseDecoder.setDitLen 50 (MorseDecoder.new (some 20) (some 10))).wpm ∧
    (MorseDecoder.setFditLen 40 (MorseDecoder.new (some 20) (some 10))).fwpm ≤
      (MorseDecoder.setFditLen 40 (MorseDecoder.new (some 20) (some 10))).wpm :=
  decoder_speed_invariant (MorseDecoder.new (some 20) (some 10)) 30 5 50 40 none none
    (by norm_num) (by with_unfolding_all decide)
    (by norm_num) (by with_unfolding_all decide)
    (by norm_num) (by norm_num) (by with_unfolding_all decide)

/-- **C9**: a NaN assignment to `wpm` or `fwpm` (modelled by `none`) is
recovered silently: the configured default 20 is substituted and the
result is clamped to be at least 1 (both setters are total functions —
no error path exists). -/
theorem nan_speed_recovery (s : MorseDecoder)
    (hdw : s.defaultWpm = 20) (hdf : s.defaultFwpm = 20) :
    (MorseDecoder.setWpm none s).wpm = 20 ∧ 1 ≤ (MorseDecoder.setWpm none s).wpm ∧
    (MorseDecoder.setFwpm none s).fwpm = 20 ∧ 1 ≤ (MorseDecoder.setFwpm none s).fwpm := by
  have h1 : (MorseDecoder.setWpm none s).wpm = 20 := by
    rw [MorseDecoder.setWpm_wpm]
    simp [hdw]
  have h2 : (MorseDecoder.setFwpm none s).fwpm = 20 := by
    unfold MorseDecoder.setFwpm
    simp only [MorseDecoder.updateThresholds_fwpm, Option.getD_none, hdf]
    have hm : max (20 : ℚ) 1 = 20 := by norm_num
    rw [hm]
    split
    · rw [MorseDecoder.setWpm_fwpm]
      simp
    · rfl
  exact ⟨h1, by rw [h1]; norm_num, h2, by rw [h2]; norm_num⟩

/-- Witness for C9 at a fresh default decoder. -/
theorem nan_speed_recovery_witness :
    (MorseDecoder.setWpm none (MorseDecoder.new (some 20) (some 20))).wpm = 20 ∧
    1 ≤ (MorseDecoder.setWpm none (MorseDecoder.new (some 20) (some 20))).wpm ∧
    (MorseDecoder.setFwpm none (MorseDecoder.new (some 20) (some 20))).fwpm = 20 ∧
    1 ≤ (MorseDecoder.setFwpm none (MorseDecoder.new (some 20) (some 20))).fwpm :=
  nan_speed_recovery (MorseDecoder.new (some 20) (some 20))
    (by with_unfolding_all decide) (by with_unfolding_all decide)

/-! ## Claim C2: the round-trip fixture -/

/-- The C2 fixture: a fresh decoder at `wpm = 20`, `fwpm = 20`, fed the
timing sequence `60, -60, 180, -180, 60, -420, 60` and then flushed. -/
def c2Final : MorseDecoder :=
  (MorseDecoder.flush
    (MorseDecoder.runTimings (MorseDecoder.new (some 20) (some 20))
      [60, -60, 180, -180, 60, -420, 60])).1

set_option maxRecDepth 4000 in
/-- Counterexample to **C2** as stated: after the fixture sequence the
accumulated morse string is `".- ./."`, not `".- . / ."`.  (The second
internal flush emits the raw classification fragment `" ./"` — an
inter-character space, a dit, and a word space with no separating
blanks — so the accumulator never matches the claim's canonically spaced
form.) -/
theorem c2_morse_counterexample : c2Final.morse ≠ ".- . / .".toList := by
  with_unfolding_all decide

set_option maxRecDepth 4000 in
/-- **C2 (amended)**: the fixture decodes to the message `"AE E"` as
claimed, but the accumulated morse string is `".- ./."` (the raw
concatenation of the three flush fragments `".-"`, `" ./"` and `"."`),
not the canonically spaced `".- . / ."`. -/
theorem c2_decodes_fixture :
    c2Final.morse = ".- ./.".toList ∧ c2Final.message = "AE E".toList := by
  with_unfolding_all decide

/-! ## Claim C5 (counterexample part): a second flush can fire the callback -/

/-- A reachable decoder state: fresh 20 wpm decoder fed `60, -180` (the
trailing silence triggers an internal flush which retains it), then
flushed explicitly once. -/
def c5FirstFlush : MorseDecoder :=
  (MorseDecoder.flush
    (MorseDecoder.runTimings (MorseDecoder.new (some 20) (some 20)) [60, -180])).1

/-- Counterexample to **C5** as stated: from the reachable state
`c5FirstFlush` — itself the result of a `flush` with no `addTiming`
after it — a second `flush` in a row invokes the message callback again
(with empty timings, morse and message).  The buffer is not empty after
a flush: a retained trailing silence below the word-space threshold is
popped and the (empty) remainder is still processed and reported. -/
theorem c5_second_flush_fires_callback :
    (MorseDecoder.flush c5FirstFlush).2 = some ⟨[], [], []⟩ := by
  with_unfolding_all decide

/-! ## Claim C7 (counterexample part) -/

/-- An adaptive decoder that classified a 100 ms tone as a dit and then a
210 ms silence as an inter-character space (exactly what flushing the
timing sequence `100, -150, …, -600` produces on a fresh 20 wpm adaptive
decoder). -/
def c7State : MorseAdaptiveDecoder :=
  MorseAdaptiveDecoder.addDecode
    (MorseAdaptiveDecoder.addDecode
      (MorseAdaptiveDecoder.new (some 20) (some 20)) 100 ".".toList)
    210 " ".toList

/-- Counterexample to **C7** as stated: with the lock off and a window
holding a defined Farnsworth sample (weighted average 70), the decoder's
`fditLen` after the element is 100, not the window's linearly-weighted
moving average — the `ditLen` setter, invoked after the `fditLen` setter,
clamps `fditLen` up to the dit average. -/
theorem c7_fditLen_not_average :
    c7State.lockSpeed = false ∧
    (MorseAdaptiveDecoder.lwSums 0 c7State.fditLengths).2 ≠ 0 ∧
    c7State.fditLen ≠
      (MorseAdaptiveDecoder.lwSums 0 c7State.fditLengths).1 /
        (MorseAdaptiveDecoder.lwSums 0 c7State.fditLengths).2 := by
  with_unfolding_all decide

/-! ## Claim C8: the adaptive lock freezes the speed estimate -/

/-- Feed a list of classified elements (duration, label) through the
adaptive decoder's `addDecode` hook. -/
def MorseAdaptiveDecoder.processDecodes (s : MorseAdaptiveDecoder)
    (elts : List (ℚ × List Char)) : MorseAdaptiveDecoder :=
  elts.foldl (fun st e => MorseAdaptiveDecoder.addDecode st e.1 e.2) s

theorem MorseAdaptiveDecoder.addDecode_locked (s : MorseAdaptiveDecoder)
    (d : ℚ) (c : List Char) (h : s.lockSpeed = true) :
    (MorseAdaptiveDecoder.addDecode s d c).wpm = s.wpm ∧
    (MorseAdaptiveDecoder.addDecode s d c).fwpm = s.fwpm ∧
    (MorseAdaptiveDecoder.addDecode s d c).ditLen = s.ditLen ∧
    (MorseAdaptiveDecoder.addDecode s d c).fditLen = s.fditLen ∧
    (MorseAdaptiveDecoder.addDecode s d c).ditDahThreshold = s.ditDahThreshold ∧
    (MorseAdaptiveDecoder.addDecode s d c).dahSpaceThreshold = s.dahSpaceThreshold ∧
    (MorseAdaptiveDecoder.addDecode s d c).lockSpeed = true := by
  unfold MorseAdaptiveDecoder.addDecode
  simp [h, MorseDecoder.addDecode]

/-- **C8**: while `lockSpeed` is true, processing any number of
classified elements through the adaptive decoder leaves `wpm`, `fwpm`,
`ditLen`, `fditLen` and both thresholds unchanged — no recalibration
occurs. -/
theorem adaptive_lock_freezes_speed (s : MorseAdaptiveDecoder)
    (elts : List (ℚ × List Char)) (h : s.lockSpeed = true) :
    (s.processDecodes elts).wpm = s.wpm ∧
    (s.processDecodes elts).fwpm = s.fwpm ∧
    (s.processDecodes elts).ditLen = s.ditLen ∧
    (s.processDecodes elts).fditLen = s.fditLen ∧
    (s.processDecodes elts).ditDahThreshold = s.ditDahThreshold ∧
    (s.processDecodes elts).dahSpaceThreshold = s.dahSpaceThreshold := by
  induction elts generalizing s with
  | nil => exact ⟨rfl, rfl, rfl, rfl, rfl, rfl⟩
  | cons e t ih =>
    have hstep := MorseAdaptiveDecoder.addDecode_locked s e.1 e.2 h
    have hrec := ih (MorseAdaptiveDecoder.addDecode s e.1 e.2) hstep.2.2.2.2.2.2
    unfold MorseAdaptiveDecoder.processDecodes at hrec ⊢
    simp only [List.foldl_cons]
    refine ⟨?_, ?_, ?_, ?_, ?_, ?_⟩
    · exact hrec.1.trans hstep.1
    · exact hrec.2.1.trans hstep.2.1
    · exact hrec.2.2.1.trans hstep.2.2.1
    · exact hrec.2.2.2.1.trans hstep.2.2.2.1
    · exact hrec.2.2.2.2.1.trans hstep.2.2.2.2.1
    · exact hrec.2.2.2.2.2.trans hstep.2.2.2.2.2.1

/-- Witness for C8: a locked adaptive decoder fed one dit element. -/
theorem adaptive_lock_freezes_speed_witness :
    (({ MorseAdaptiveDecoder.new (some 20) (some 20) with lockSpeed := true
       } : MorseAdaptiveDecoder).processDecodes [(100, ".".toList)]).wpm =
      ({ MorseAdaptiveDecoder.new (some 20) (some 20) with lockSpeed := true
       } : MorseAdaptiveDecoder).wpm ∧
    (({ MorseAdaptiveDecoder.new (some 20) (some 20) with lockSpeed := true
       } : MorseAdaptiveDecoder).processDecodes [(100, ".".toList)]).fwpm =
      ({ MorseAdaptiveDecoder.new (some 20) (some 20) with lockSpeed := true
       } : MorseAdaptiveDecoder).fwpm ∧
    (({ MorseAdaptiveDecoder.new (some 20) (some 20) with lockSpeed := true
       } : MorseAdaptiveDecoder).processDecodes [(100, ".".toList)]).ditLen =
      ({ MorseAdaptiveDecoder.new (some 20) (some 20) with lockSpeed := true
       } : MorseAdaptiveDecoder).ditLen ∧
    (({ MorseAdaptiveDecoder.new (some 20) (some 20) with lockSpeed := true
       } : MorseAdaptiveDecoder).processDecodes [(100, ".".toList)]).fditLen =
      ({ MorseAdaptiveDecoder.new (some 20) (some 20) with lockSpeed := true
       } : MorseAdaptiveDecoder).fditLen ∧
    (({ MorseAdaptiveDecoder.new (some 20) (some 20) with lockSpeed := true
       } : MorseAdaptiveDecoder).processDecodes [(100, ".".toList)]).ditDahThreshold =
      ({ MorseAdaptiveDecoder.new (some 20) (some 20) with lockSpeed := true
       } : MorseAdaptiveDecoder).ditDahThreshold ∧
    (({ MorseAdaptiveDecoder.new (some 20) (some 20) with lockSpeed := true
       } : MorseAdaptiveDecoder).processDecodes [(100, ".".toList)]).dahSpaceThreshold =
      ({ MorseAdaptiveDecoder.new (some 20) (some 20) with lockSpeed := true
       } : MorseAdaptiveDecoder).dahSpaceThreshold :=
  adaptive_lock_freezes_speed _ [(100, ".".toList)] rfl

/-! ## Claim C6: noise rejection -/

namespace MorseDecoder

/-- `addTiming` with an opposite-sign duration within the noise
threshold: the glitch is absorbed into the previous buffer entry with a
sign flip, no flush fires, and nothing else changes. -/
theorem addTiming_glitch (s : MorseDecoder) (B : List ℚ) (l g : ℚ)
    (hbuf : s.unusedTimes = B ++ [l])
    (hg : g ≠ 0) (hopp : ¬ 0 < g * l) (hnoise : |g| ≤ s.noiseThreshold)
    (hnf : -(l - g) < s.ditDahThreshold) :
    addTiming s g = ({ s with unusedTimes := B ++ [l - g] }, none) := by
  unfold addTiming
  rw [if_neg hg]
  simp only [hbuf, List.getLast?_concat]
  rw [if_neg hopp, if_pos hnoise, if_neg (not_le.mpr hnf)]
  simp [List.dropLast_concat]

/-- `addTiming` with a same-sign duration: the durations are merged into
one buffer entry, no flush fires, and nothing else changes. -/
theorem addTiming_merge (s : MorseDecoder) (B : List ℚ) (l q : ℚ)
    (hbuf : s.unusedTimes = B ++ [l])
    (hq : q ≠ 0) (hsame : 0 < q * l)
    (hnf : -(l + q) < s.ditDahThreshold) :
    addTiming s q = ({ s with unusedTimes := B ++ [l + q] }, none) := by
  unfold addTiming
  rw [if_neg hq]
  simp only [hbuf, List.getLast?_concat]
  rw [if_pos hsame, if_neg (not_le.mpr hnf)]
  simp [List.dropLast_concat]

end MorseDecoder

/-- **C6**: a single spurious duration `g` of magnitude at most
`noiseThreshold` injected between two same-polarity durations creates no
spurious classified element: nothing is classified (`timings`,
`characters`, `morse`, `message` are untouched and no flush fires), and
the surrounding durations end up merged into a single buffer entry —
`l - g + q`, i.e. the same single entry as without the glitch except that
the glitch's magnitude (at most the 1 ms noise threshold) is absorbed
into it. -/
theorem noise_glitch_is_absorbed (s : MorseDecoder) (B : List ℚ) (l g q : ℚ)
    (hbuf : s.unusedTimes = B ++ [l])
    (hopp : g * l < 0) (hnoise : |g| ≤ s.noiseThreshold) (hsame : 0 < q * l)
    (hnf1 : -(l - g) < s.ditDahThreshold)
    (hnf2 : -(l - g + q) < s.ditDahThreshold) :
    (MorseDecoder.addTiming (MorseDecoder.addTiming s g).1 q).1 =
      { s with unusedTimes := B ++ [l - g + q] } ∧
    (MorseDecoder.addTiming s g).2 = none ∧
    (MorseDecoder.addTiming (MorseDecoder.addTiming s g).1 q).2 = none := by
  have hg : g ≠ 0 := by
    intro h; rw [h] at hopp; simp at hopp
  have hq : q ≠ 0 := by
    intro h; rw [h] at hsame; simp at hsame
  have h1 := MorseDecoder.addTiming_glitch s B l g hbuf hg (not_lt.mpr (le_of_lt hopp))
    hnoise hnf1
  -- the merged entry has the same sign as `l`, so `q` merges with it
  have hsame2 : 0 < q * (l - g) := by
    rcases lt_trichotomy l 0 with hl | hl | hl
    · have hgpos : 0 < g := by nlinarith
      have hqneg : q < 0 := by nlinarith
      have : l - g < 0 := by linarith
      exact mul_pos_of_neg_of_neg hqneg this
    · rw [hl] at hopp; simp at hopp
    · have hgneg : g < 0 := by nlinarith
      have hqpos : 0 < q := by nlinarith
      have : 0 < l - g := by linarith
      exact mul_pos hqpos this
  have h2 := MorseDecoder.addTiming_merge (MorseDecoder.addTiming s g).1 B (l - g) q
    (by rw [h1]) hq hsame2 (by rw [h1]; simpa using hnf2)
  refine ⟨?_, by rw [h1], by rw [h2]⟩
  rw [h2, h1]

/-- Witness for C6: a fresh 20 wpm decoder holding a 60 ms tone absorbs a
1 ms silence glitch between it and a following 30 ms tone. -/
theorem noise_glitch_is_absorbed_witness :
    (MorseDecoder.addTiming
        (MorseDecoder.addTiming
          (MorseDecoder.runTimings (MorseDecoder.new (some 20) (some 20)) [60]) (-1)).1
        30).1 =
      { MorseDecoder.runTimings (MorseDecoder.new (some 20) (some 20)) [60] with
        unusedTimes := [] ++ [60 - (-1) + 30] } ∧
    (MorseDecoder.addTiming
        (MorseDecoder.runTimings (MorseDecoder.new (some 20) (some 20)) [60]) (-1)).2 =
      none ∧
    (MorseDecoder.addTiming
        (MorseDecoder.addTiming
          (MorseDecoder.runTimings (MorseDecoder.new (some 20) (some 20)) [60]) (-1)).1
        30).2 = none :=
  noise_glitch_is_absorbed
    (MorseDecoder.runTimings (MorseDecoder.new (some 20) (some 20)) [60]) [] 60 (-1) 30
    (by with_unfolding_all decide) (by norm_num) (by with_unfolding_all decide)
    (by norm_num) (by with_unfolding_all decide) (by with_unfolding_all decide)

/-! ## Claim C10: the buffer after a flush -/

namespace MorseDecoder

/-- One `timings2morse` iteration touches only `timings` and
`characters` of the state. -/
theorem timings2morseStep_preserves (s : MorseDecoder) (acc : List Char) (d : ℚ) :
    (timings2morseStep (s, acc) d).1.ditDahThreshold = s.ditDahThreshold ∧
    (timings2morseStep (s, acc) d).1.dahSpaceThreshold = s.dahSpaceThreshold ∧
    (timings2morseStep (s, acc) d).1.morse = s.morse ∧
    (timings2morseStep (s, acc) d).1.message = s.message ∧
    (timings2morseStep (s, acc) d).1.unusedTimes = s.unusedTimes ∧
    (timings2morseStep (s, acc) d).1.noiseThreshold = s.noiseThreshold := by
  unfold timings2morseStep
  by_cases h : 0 < d <;>
    simp only [h, if_true, if_false, reduceIte] <;>
    exact ⟨rfl, rfl, rfl, rfl, rfl, rfl⟩

/-- The `timings2morse` fold touches only `timings` and `characters`:
thresholds and both accumulators survive it. -/
theorem timings2morse_preserves (times : List ℚ) :
    ∀ (s : MorseDecoder) (acc : List Char),
      (times.foldl timings2morseStep (s, acc)).1.ditDahThreshold = s.ditDahThreshold ∧
      (times.foldl timings2morseStep (s, acc)).1.dahSpaceThreshold = s.dahSpaceThreshold ∧
      (times.foldl timings2morseStep (s, acc)).1.morse = s.morse ∧
      (times.foldl timings2morseStep (s, acc)).1.message = s.message ∧
      (times.foldl timings2morseStep (s, acc)).1.unusedTimes = s.unusedTimes ∧
      (times.foldl timings2morseStep (s, acc)).1.noiseThreshold = s.noiseThreshold := by
  induction times with
  | nil => intro s acc; exact ⟨rfl, rfl, rfl, rfl, rfl, rfl⟩
  | cons d t ih =>
    intro s acc
    simp only [List.foldl_cons]
    have hs' := timings2morseStep_preserves s acc d
    rcases hp : timings2morseStep (s, acc) d with ⟨s', acc'⟩
    rw [hp] at hs'
    have := ih s' acc'
    refine ⟨?_, ?_, ?_, ?_, ?_, ?_⟩
    · exact this.1.trans hs'.1
    · exact this.2.1.trans hs'.2.1
    · exact this.2.2.1.trans hs'.2.2.1
    · exact this.2.2.2.1.trans hs'.2.2.2.1
    · exact this.2.2.2.2.1.trans hs'.2.2.2.2.1
    · exact this.2.2.2.2.2.trans hs'.2.2.2.2.2

theorem flushShift_morse (s : MorseDecoder) : (flushShift s).morse = s.morse := by
  unfold flushShift; split <;> rfl

end MorseDecoder

/-- **C10**: after every `flush()` (direct or triggered from inside
`addTiming`, which calls this same function) the unused-time buffer has
at most one entry, and a retained entry is always a negative (silence)
duration.  Moreover, a trailing silence `l` long enough for a word space
(`dahSpaceThreshold ≤ -l`) is both emitted — the morse accumulator ends
with the `'/'` it contributed — and retained as the buffer's single
entry for the next round. -/
theorem flush_buffer_invariant (s t : MorseDecoder) (B : List ℚ) (l : ℚ)
    (ht1 : t.ditDahThreshold ≤ t.dahSpaceThreshold)
    (ht2 : (MorseDecoder.flushShift t).unusedTimes = B ++ [l])
    (ht3 : l < 0) (ht4 : t.dahSpaceThreshold ≤ -l) :
    ((MorseDecoder.flush s).1.unusedTimes.length ≤ 1 ∧
     ∀ u ∈ (MorseDecoder.flush s).1.unusedTimes, u < 0) ∧
    ((MorseDecoder.flush t).1.unusedTimes = [l] ∧
     (MorseDecoder.flush t).1.morse.getLast? = some '/' ∧
     (MorseDecoder.flush t).2 ≠ none) := by
  constructor
  · -- parts 1 and 2, for an arbitrary state
    unfold MorseDecoder.flush MorseDecoder.flushCore
    rcases hL : (MorseDecoder.flushShift s).unusedTimes.getLast? with _ | last
    · rw [List.getLast?_eq_none_iff] at hL
      simp [hL]
    · simp only
      split
      · rename_i hneg
        constructor
        · simp
        · intro u hu
          simp only [List.mem_singleton] at hu
          rw [hu]; exact hneg
      · simp
  · -- part 3: a retained word-space silence is emitted and kept
    have hth1 : (MorseDecoder.flushShift t).ditDahThreshold = t.ditDahThreshold :=
      MorseDecoder.flushShift_ditDahThreshold t
    have hth2 : (MorseDecoder.flushShift t).dahSpaceThreshold = t.dahSpaceThreshold :=
      MorseDecoder.flushShift_dahSpaceThreshold t
    unfold MorseDecoder.flush MorseDecoder.flushCore
    rw [ht2, List.getLast?_concat]
    simp only
    have hpop : ¬ (l < 0 ∧ -l < (MorseDecoder.flushShift t).dahSpaceThreshold) := by
      rw [hth2]
      rintro ⟨-, hc⟩
      exact absurd ht4 (not_le.mpr hc)
    rw [if_neg hpop, if_pos ht3]
    refine ⟨rfl, ?_, by simp⟩
    -- the emitted fragment ends with the '/' classified from l
    show ((MorseDecoder.timings2morse (MorseDecoder.flushShift t) (B ++ [l])).1.morse ++
      (MorseDecoder.timings2morse (MorseDecoder.flushShift t) (B ++ [l])).2).getLast? =
        some '/'
    unfold MorseDecoder.timings2morse
    rw [List.foldl_append]
    rcases hq : List.foldl MorseDecoder.timings2morseStep
        (MorseDecoder.flushShift t, []) B with ⟨sB, accB⟩
    have hsB := MorseDecoder.timings2morse_preserves B (MorseDecoder.flushShift t) []
    rw [hq] at hsB
    have hstep : (List.foldl MorseDecoder.timings2morseStep (sB, accB) [l]).2 =
        accB ++ ['/'] := by
      simp only [List.foldl_cons, List.foldl_nil]
      unfold MorseDecoder.timings2morseStep
      have h0 : ¬ (0 < l) := not_lt.mpr (le_of_lt ht3)
      have h1 : ¬ (-l < sB.ditDahThreshold) := by
        rw [hsB.1, hth1]
        exact not_lt.mpr (le_trans (le_trans ht1 ht4) (le_refl _))
      have h2 : ¬ (-l < sB.dahSpaceThreshold) := by
        rw [hsB.2.1, hth2]
        exact not_lt.mpr ht4
      simp only [h0, h1, h2, if_false, reduceIte]
    rw [hstep]
    have hmorse : (List.foldl MorseDecoder.timings2morseStep (sB, accB) [l]).1.morse =
        t.morse := by
      have h := MorseDecoder.timings2morse_preserves [l] sB accB
      rw [h.2.2.1, hsB.2.2.1, MorseDecoder.flushShift_morse]
    rw [hmorse, ← List.append_assoc, List.getLast?_concat]

/-- Witness for C10: the arbitrary-state part applied at a fresh decoder,
and the word-space part at a fresh 20 wpm decoder whose buffer holds a
60 ms tone followed by a 420 ms silence. -/
theorem flush_buffer_invariant_witness :
    (((MorseDecoder.flush (MorseDecoder.new (some 20) (some 20))).1.unusedTimes.length ≤ 1 ∧
      ∀ u ∈ (MorseDecoder.flush (MorseDecoder.new (some 20) (some 20))).1.unusedTimes,
        u < 0) ∧
     ((MorseDecoder.flush
         { MorseDecoder.new (some 20) (some 20) with
           unusedTimes := [60, -420] }).1.unusedTimes = [-420] ∧
      (MorseDecoder.flush
         { MorseDecoder.new (some 20) (some 20) with
           unusedTimes := [60, -420] }).1.morse.getLast? = some '/' ∧
      (MorseDecoder.flush
         { MorseDecoder.new (some 20) (some 20) with
           unusedTimes := [60, -420] }).2 ≠ none)) :=
  flush_buffer_invariant (MorseDecoder.new (some 20) (some 20))
    { MorseDecoder.new (some 20) (some 20) with unusedTimes := [60, -420] }
    [60] (-420)
    (by with_unfolding_all decide) (by with_unfolding_all decide)
    (by norm_num) (by with_unfolding_all decide)

/-! ## Claim C7 (amended part): what one adaptive `addDecode` does -/

namespace MorseAdaptiveDecoder

/-- The linearly-weighted moving average over a window, as the spec
describes it: `sum((i+1)·sᵢ) / sum(i+1)` over the defined samples,
position 0 the oldest. -/
def lwma (w : List (Option ℚ)) : ℚ := (lwSums 0 w).1 / (lwSums 0 w).2

theorem jsSliceLast_length_le {α : Type} (n : ℕ) (l : List α) (h : n ≠ 0) :
    (jsSliceLast n l).length ≤ n := by
  unfold jsSliceLast
  rw [if_neg h, List.length_drop]
  omega

theorem addDecode_ditLengths (s : MorseAdaptiveDecoder) (d : ℚ) (c : List Char) :
    (addDecode s d c).ditLengths =
      jsSliceLast s.bufferSize (s.ditLengths ++ [ditSample d c]) := by
  unfold addDecode
  simp only [apply_ite MorseAdaptiveDecoder.ditLengths]
  simp

theorem addDecode_fditLengths (s : MorseAdaptiveDecoder) (d : ℚ) (c : List Char) :
    (addDecode s d c).fditLengths =
      jsSliceLast s.bufferSize (s.fditLengths ++ [fditSample d c]) := by
  unfold addDecode
  simp only [apply_ite MorseAdaptiveDecoder.fditLengths]
  simp

theorem setDitLen_fields (dd : ℚ) (x : MorseDecoder) :
    (MorseDecoder.setDitLen dd x).ditLen = dd ∧
    (MorseDecoder.setDitLen dd x).fditLen = (if x.fditLen < dd then dd else x.fditLen) ∧
    (MorseDecoder.setDitLen dd x).wpm = WPM.wpmOf dd ∧
    (MorseDecoder.setDitLen dd x).fwpm =
      WPM.fwpmOf (WPM.wpmOf dd) ((if x.fditLen < dd then dd else x.fditLen) / dd) ∧
    (MorseDecoder.setDitLen dd x).ditDahThreshold = (1 * dd + 3 * dd) / 2 ∧
    (MorseDecoder.setDitLen dd x).dahSpaceThreshold =
      (3 * (if x.fditLen < dd then dd else x.fditLen) +
        7 * (if x.fditLen < dd then dd else x.fditLen)) / 2 :=
  ⟨rfl, rfl, rfl, rfl, rfl, rfl⟩

theorem setFditLen_fditLen (f : ℚ) (x : MorseDecoder) :
    (MorseDecoder.setFditLen f x).fditLen = f := rfl

/-- With the lock off and both weighted denominators non-zero, one
adaptive `addDecode` sets the base decoder by first applying the
`fditLen` setter at the Farnsworth average and then the `ditLen` setter
at the dit average (each average taken over the first `bufferSize`
positions of the freshly updated windows). -/
theorem addDecode_unlocked (s : MorseAdaptiveDecoder) (d : ℚ) (c : List Char)
    (hlock : s.lockSpeed = false)
    (hfd : (lwSums 0
      ((jsSliceLast s.bufferSize (s.fditLengths ++ [fditSample d c])).take
        s.bufferSize)).2 ≠ 0)
    (hdd : (lwSums 0
      ((jsSliceLast s.bufferSize (s.ditLengths ++ [ditSample d c])).take
        s.bufferSize)).2 ≠ 0) :
    (addDecode s d c).toMorseDecoder =
      MorseDecoder.setDitLen
        (lwma ((jsSliceLast s.bufferSize (s.ditLengths ++ [ditSample d c])).take
          s.bufferSize))
        (MorseDecoder.setFditLen
          (lwma ((jsSliceLast s.bufferSize (s.fditLengths ++ [fditSample d c])).take
            s.bufferSize))
          (s.toMorseDecoder.addDecode d c)) := by
  unfold addDecode lwma
  simp only [hlock, Bool.false_eq_true, if_false, reduceIte]
  rw [if_pos hfd, if_pos hdd]

end MorseAdaptiveDecoder

/-- **C7 (amended)**: after an element is classified with the lock off,
the sample windows are updated exactly as the claim says (sample rule by
label, `push` then keep the `bufferSize` most recent entries), and — here
the claim needed amending — the unit lengths are recomputed from the
linearly-weighted moving averages with the `fditLen` setter applied
first and the `ditLen` setter second, so that `ditLen` ends at the dit
average but `fditLen` ends at the *maximum* of the Farnsworth average
and the dit average (the `ditLen` setter's cross-clamp), with `wpm`,
`fwpm` and both thresholds recomputed from those values. -/
theorem adaptive_recalibration_step (s : MorseAdaptiveDecoder) (d : ℚ) (c : List Char)
    (hlock : s.lockSpeed = false) (hbs : s.bufferSize ≠ 0)
    (hfd : (MorseAdaptiveDecoder.lwSums 0
      (MorseAdaptiveDecoder.addDecode s d c).fditLengths).2 ≠ 0)
    (hdd : (MorseAdaptiveDecoder.lwSums 0
      (MorseAdaptiveDecoder.addDecode s d c).ditLengths).2 ≠ 0) :
    (MorseAdaptiveDecoder.addDecode s d c).ditLengths =
      jsSliceLast s.bufferSize (s.ditLengths ++ [MorseAdaptiveDecoder.ditSample d c]) ∧
    (MorseAdaptiveDecoder.addDecode s d c).fditLengths =
      jsSliceLast s.bufferSize (s.fditLengths ++ [MorseAdaptiveDecoder.fditSample d c]) ∧
    (MorseAdaptiveDecoder.addDecode s d c).ditLen =
      MorseAdaptiveDecoder.lwma (MorseAdaptiveDecoder.addDecode s d c).ditLengths ∧
    (MorseAdaptiveDecoder.addDecode s d c).fditLen =
      max (MorseAdaptiveDecoder.lwma (MorseAdaptiveDecoder.addDecode s d c).fditLengths)
        (MorseAdaptiveDecoder.lwma (MorseAdaptiveDecoder.addDecode s d c).ditLengths) ∧
    (MorseAdaptiveDecoder.addDecode s d c).wpm =
      WPM.wpmOf (MorseAdaptiveDecoder.addDecode s d c).ditLen ∧
    (MorseAdaptiveDecoder.addDecode s d c).fwpm =
      WPM.fwpmOf (MorseAdaptiveDecoder.addDecode s d c).wpm
        ((MorseAdaptiveDecoder.addDecode s d c).fditLen /
          (MorseAdaptiveDecoder.addDecode s d c).ditLen) ∧
    (MorseAdaptiveDecoder.addDecode s d c).ditDahThreshold =
      (1 * (MorseAdaptiveDecoder.addDecode s d c).ditLen +
        3 * (MorseAdaptiveDecoder.addDecode s d c).ditLen) / 2 ∧
    (MorseAdaptiveDecoder.addDecode s d c).dahSpaceThreshold =
      (3 * (MorseAdaptiveDecoder.addDecode s d c).fditLen +
        7 * (MorseAdaptiveDecoder.addDecode s d c).fditLen) / 2 := by
  have hW1 := MorseAdaptiveDecoder.addDecode_ditLengths s d c
  have hW2 := MorseAdaptiveDecoder.addDecode_fditLengths s d c
  have htake1 : ((jsSliceLast s.bufferSize
      (s.ditLengths ++ [MorseAdaptiveDecoder.ditSample d c])).take s.bufferSize) =
      jsSliceLast s.bufferSize (s.ditLengths ++ [MorseAdaptiveDecoder.ditSample d c]) :=
    List.take_of_length_le (MorseAdaptiveDecoder.jsSliceLast_length_le _ _ hbs)
  have htake2 : ((jsSliceLast s.bufferSize
      (s.fditLengths ++ [MorseAdaptiveDecoder.fditSample d c])).take s.bufferSize) =
      jsSliceLast s.bufferSize (s.fditLengths ++ [MorseAdaptiveDecoder.fditSample d c]) :=
    List.take_of_length_le (MorseAdaptiveDecoder.jsSliceLast_length_le _ _ hbs)
  have hbase := MorseAdaptiveDecoder.addDecode_unlocked s d c hlock
    (by rw [htake2, ← hW2]; exact hfd) (by rw [htake1, ← hW1]; exact hdd)
  rw [htake1, htake2] at hbase
  set A := MorseAdaptiveDecoder.lwma
    (jsSliceLast s.bufferSize (s.ditLengths ++ [MorseAdaptiveDecoder.ditSample d c]))
    with hA
  set F := MorseAdaptiveDecoder.lwma
    (jsSliceLast s.bufferSize (s.fditLengths ++ [MorseAdaptiveDecoder.fditSample d c]))
    with hF
  have hfields := MorseAdaptiveDecoder.setDitLen_fields A
    (MorseDecoder.setFditLen F (s.toMorseDecoder.addDecode d c))
  rw [MorseAdaptiveDecoder.setFditLen_fditLen] at hfields
  have hfd' : (MorseAdaptiveDecoder.addDecode s d c).fditLen = if F < A then A else F := by
    show ((MorseAdaptiveDecoder.addDecode s d c).toMorseDecoder).fditLen = _
    rw [hbase]
    exact hfields.2.1
  have hmax : (if F < A then A else F) = max F A := by
    by_cases h : F < A
    · rw [if_pos h, max_eq_right (le_of_lt h)]
    · rw [if_neg h, max_eq_left (not_lt.mp h)]
  refine ⟨hW1, hW2, ?_, ?_, ?_, ?_, ?_, ?_⟩
  · show ((MorseAdaptiveDecoder.addDecode s d c).toMorseDecoder).ditLen = _
    rw [hbase, hW1]
    exact hfields.1
  · rw [hfd', hmax, hW1, hW2]
  · show ((MorseAdaptiveDecoder.addDecode s d c).toMorseDecoder).wpm = _
    rw [hbase]
    have : ((MorseAdaptiveDecoder.addDecode s d c).toMorseDecoder).ditLen = A := by
      rw [hbase]; exact hfields.1
    rw [this.symm, hbase]
    exact hfields.2.2.1
  · show ((MorseAdaptiveDecoder.addDecode s d c).toMorseDecoder).fwpm = _
    rw [hbase, hfields.2.2.2.1, hfields.2.2.1, hfields.2.1, hfields.1]
  · show ((MorseAdaptiveDecoder.addDecode s d c).toMorseDecoder).ditDahThreshold = _
    rw [hbase, hfields.2.2.2.2.1, hfields.1]
  · show ((MorseAdaptiveDecoder.addDecode s d c).toMorseDecoder).dahSpaceThreshold = _
    rw [hbase, hfields.2.2.2.2.2, hfields.2.1]

/-- The C7 state after its first classified element (a 100 ms dit). -/
def c7Step1 : MorseAdaptiveDecoder :=
  MorseAdaptiveDecoder.addDecode
    (MorseAdaptiveDecoder.new (some 20) (some 20)) 100 ".".toList

/-- Witness for the amended C7 at the second classified element of the
counterexample trace (a 210 ms inter-character space). -/
theorem adaptive_recalibration_step_witness :
    (MorseAdaptiveDecoder.addDecode c7Step1 210 " ".toList).ditLengths =
      jsSliceLast c7Step1.bufferSize
        (c7Step1.ditLengths ++ [MorseAdaptiveDecoder.ditSample 210 " ".toList]) ∧
    (MorseAdaptiveDecoder.addDecode c7Step1 210 " ".toList).fditLengths =
      jsSliceLast c7Step1.bufferSize
        (c7Step1.fditLengths ++ [MorseAdaptiveDecoder.fditSample 210 " ".toList]) ∧
    (MorseAdaptiveDecoder.addDecode c7Step1 210 " ".toList).ditLen =
      MorseAdaptiveDecoder.lwma
        (MorseAdaptiveDecoder.addDecode c7Step1 210 " ".toList).ditLengths ∧
    (MorseAdaptiveDecoder.addDecode c7Step1 210 " ".toList).fditLen =
      max (MorseAdaptiveDecoder.lwma
            (MorseAdaptiveDecoder.addDecode c7Step1 210 " ".toList).fditLengths)
        (MorseAdaptiveDecoder.lwma
          (MorseAdaptiveDecoder.addDecode c7Step1 210 " ".toList).ditLengths) ∧
    (MorseAdaptiveDecoder.addDecode c7Step1 210 " ".toList).wpm =
      WPM.wpmOf (MorseAdaptiveDecoder.addDecode c7Step1 210 " ".toList).ditLen ∧
    (MorseAdaptiveDecoder.addDecode c7Step1 210 " ".toList).fwpm =
      WPM.fwpmOf (MorseAdaptiveDecoder.addDecode c7Step1 210 " ".toList).wpm
        ((MorseAdaptiveDecoder.addDecode c7Step1 210 " ".toList).fditLen /
          (MorseAdaptiveDecoder.addDecode c7Step1 210 " ".toList).ditLen) ∧
    (MorseAdaptiveDecoder.addDecode c7Step1 210 " ".toList).ditDahThreshold =
      (1 * (MorseAdaptiveDecoder.addDecode c7Step1 210 " ".toList).ditLen +
        3 * (MorseAdaptiveDecoder.addDecode c7Step1 210 " ".toList).ditLen) / 2 ∧
    (MorseAdaptiveDecoder.addDecode c7Step1 210 " ".toList).dahSpaceThreshold =
      (3 * (MorseAdaptiveDecoder.addDecode c7Step1 210 " ".toList).fditLen +
        7 * (MorseAdaptiveDecoder.addDecode c7Step1 210 " ".toList).fditLen) / 2 :=
  adaptive_recalibration_step c7Step1 210 " ".toList
    (by with_unfolding_all decide) (by with_unfolding_all decide)
    (by with_unfolding_all decide) (by with_unfolding_all decide)

/-! ## Claim C5 (amended part): string lemmas about `tidyMorse`

The decoder only ever hands `morse2text` fragments built from the four
classification characters `'.'`, `'-'`, `' '`, `'/'`.  The lemmas below
show that such a fragment ending in `'/'` always translates to a message
ending in `' '` — the fact that makes a double flush leave the
accumulators alone. -/

namespace Morse

/-- A character the classifier can emit. -/
def deco (c : Char) : Prop := c = '.' ∨ c = '-' ∨ c = ' ' ∨ c = '/'

instance (c : Char) : Decidable (deco c) := by unfold deco; infer_instance

theorem deco_not_ws (c : Char) (h : deco c) (hs : c ≠ ' ') : isWs c = false := by
  rcases h with h | h | h | h <;> subst h <;> first | rfl | exact absurd rfl hs

theorem deco_not_pipe (c : Char) (h : deco c) : c ≠ '|' := by
  rcases h with h | h | h | h <;> subst h <;> decide

theorem deco_not_underscore (c : Char) (h : deco c) : c ≠ '_' := by
  rcases h with h | h | h | h <;> subst h <;> decide

mutual

/-- Every `'/'` is immediately followed by `' '` and immediately preceded
by `' '` or the start of the string; the flag records whether the
previous position allows a `'/'` here. -/
def slashIso (p : Bool) : List Char → Bool
  | [] => true
  | c :: rest => if c = '/' then p && slashAfter rest else slashIso (c == ' ') rest

/-- State right after a `'/'`: the next character must be `' '`. -/
def slashAfter : List Char → Bool
  | [] => false
  | c :: rest => if c = ' ' then slashIso true rest else false

end

theorem spaceSeps_cons (c : Char) (t : List Char) :
    spaceSeps (c :: t) = (if c = '/' then [' ', '/', ' '] else [c]) ++ spaceSeps t := by
  simp [spaceSeps]

theorem spaceSeps_append (a b : List Char) :
    spaceSeps (a ++ b) = spaceSeps a ++ spaceSeps b := by
  simp [spaceSeps]

/-- Recurrence: a `'/'` in the input leaves `" /"` followed by the
whitespace-run state. -/
theorem squashWs_spaceSeps_slash (t : List Char) :
    squashWs (spaceSeps ('/' :: t)) = ' ' :: '/' :: squashWsRun (spaceSeps t) := by
  rw [spaceSeps_cons, if_pos rfl]
  show squashWs (' ' :: '/' :: ' ' :: spaceSeps t) = _
  rw [squashWs, if_pos (by decide), squashWsRun, if_neg (by decide),
    squashWs, if_pos (by decide)]

/-- Recurrence: a `' '` in the input enters the whitespace-run state. -/
theorem squashWs_spaceSeps_space (t : List Char) :
    squashWs (spaceSeps (' ' :: t)) = squashWsRun (spaceSeps t) := by
  rw [spaceSeps_cons, if_neg (by decide)]
  show squashWs (' ' :: spaceSeps t) = _
  rw [squashWs, if_pos (by decide)]

/-- Recurrence: any other classifier character is copied. -/
theorem squashWs_spaceSeps_other (c : Char) (t : List Char)
    (hc : deco c) (h1 : c ≠ '/') (h2 : c ≠ ' ') :
    squashWs (spaceSeps (c :: t)) = c :: squashWs (spaceSeps t) := by
  rw [spaceSeps_cons, if_neg h1]
  show squashWs (c :: spaceSeps t) = _
  rw [squashWs, if_neg (by rw [deco_not_ws c hc h2]; exact Bool.false_ne_true)]

/-- Recurrence: the run state on a `'/'` closes the run and behaves like
the scan state did. -/
theorem squashWsRun_spaceSeps_slash (t : List Char) :
    squashWsRun (spaceSeps ('/' :: t)) = ' ' :: '/' :: squashWsRun (spaceSeps t) := by
  rw [spaceSeps_cons, if_pos rfl]
  show squashWsRun (' ' :: '/' :: ' ' :: spaceSeps t) = _
  rw [squashWsRun, if_pos (by decide), squashWsRun, if_neg (by decide),
    squashWs, if_pos (by decide)]

theorem squashWsRun_spaceSeps_space (t : List Char) :
    squashWsRun (spaceSeps (' ' :: t)) = squashWsRun (spaceSeps t) := by
  rw [spaceSeps_cons, if_neg (by decide)]
  show squashWsRun (' ' :: spaceSeps t) = _
  rw [squashWsRun, if_pos (by decide)]

theorem squashWsRun_spaceSeps_other (c : Char) (t : List Char)
    (hc : deco c) (h1 : c ≠ '/') (h2 : c ≠ ' ') :
    squashWsRun (spaceSeps (c :: t)) = ' ' :: c :: squashWs (spaceSeps t) := by
  rw [spaceSeps_cons, if_neg h1]
  show squashWsRun (c :: spaceSeps t) = _
  rw [squashWsRun, if_neg (by rw [deco_not_ws c hc h2]; exact Bool.false_ne_true)]

theorem slashIso_space (p : Bool) (l : List Char) :
    slashIso p (' ' :: l) = slashIso true l := by
  rw [slashIso, if_neg (by decide)]
  norm_num

theorem slashIso_slash (p : Bool) (l : List Char) :
    slashIso p ('/' :: l) = (p && slashAfter l) := by
  rw [slashIso, if_pos rfl]

theorem slashIso_other (p : Bool) (c : Char) (l : List Char) (hc : c ≠ '/') :
    slashIso p (c :: l) = slashIso (c == ' ') l := by
  rw [slashIso, if_neg hc]

theorem slashAfter_space (l : List Char) : slashAfter (' ' :: l) = slashIso true l := by
  rw [slashAfter, if_pos rfl]

theorem slashAfter_nil : slashAfter [] = false := rfl

theorem slashAfter_other (c : Char) (l : List Char) (hc : c ≠ ' ') :
    slashAfter (c :: l) = false := by
  rw [slashAfter, if_neg hc]

theorem slashIso_slash_space (p : Bool) (l : List Char) :
    slashIso p ('/' :: ' ' :: l) = (p && slashIso true l) := by
  rw [slashIso_slash, slashAfter_space]

/-- Joint invariant of the whitespace squash over an expanded fragment:
the output satisfies `slashIso` under any incoming flag, and the run
state's output always starts with a space. -/
theorem squash_iso (t : List Char) (hdeco : ∀ c ∈ t, deco c) :
    (∀ p, slashIso p (squashWs (spaceSeps t)) = true) ∧
    (∀ q, slashIso q (squashWsRun (spaceSeps t)) = true) ∧
    (∃ r, squashWsRun (spaceSeps t) = ' ' :: r) := by
  induction t with
  | nil =>
    refine ⟨fun p => rfl, fun q => ?_, ⟨[], rfl⟩⟩
    show slashIso q [' '] = true
    rw [slashIso_space]
    rfl
  | cons c t ih =>
    have hdt : ∀ x ∈ t, deco x := fun x hx => hdeco x (List.mem_cons_of_mem c hx)
    obtain ⟨ihA, ihB, r, hr⟩ := ih hdt
    have hrIso : slashIso true r = true := by
      have := ihB true
      rw [hr, slashIso_space] at this
      exact this
    rcases hdeco c (List.mem_cons_self c t) with hc | hc | hc | hc
    · -- c = '.'
      subst hc
      rw [squashWs_spaceSeps_other '.' t (by left; rfl) (by decide) (by decide),
          squashWsRun_spaceSeps_other '.' t (by left; rfl) (by decide) (by decide)]
      refine ⟨fun p => ?_, fun q => ?_, ⟨'.' :: squashWs (spaceSeps t), rfl⟩⟩
      · rw [slashIso_other p '.' _ (by decide)]
        exact ihA _
      · rw [slashIso_space, slashIso_other _ '.' _ (by decide)]
        exact ihA _
    · -- c = '-'
      subst hc
      rw [squashWs_spaceSeps_other '-' t (by right; left; rfl) (by decide) (by decide),
          squashWsRun_spaceSeps_other '-' t (by right; left; rfl) (by decide) (by decide)]
      refine ⟨fun p => ?_, fun q => ?_, ⟨'-' :: squashWs (spaceSeps t), rfl⟩⟩
      · rw [slashIso_other p '-' _ (by decide)]
        exact ihA _
      · rw [slashIso_space, slashIso_other _ '-' _ (by decide)]
        exact ihA _
    · -- c = ' '
      subst hc
      rw [squashWs_spaceSeps_space, squashWsRun_spaceSeps_space]
      exact ⟨ihB, ihB, ⟨r, hr⟩⟩
    · -- c = '/'
      subst hc
      rw [squashWs_spaceSeps_slash, squashWsRun_spaceSeps_slash, hr]
      have hcommon : ∀ p : Bool, slashIso p (' ' :: '/' :: ' ' :: r) = true := by
        intro p
        rw [slashIso_space, slashIso_slash_space]
        simp [hrIso]
      exact ⟨hcommon, hcommon, ⟨'/' :: ' ' :: r, rfl⟩⟩

/-- Joint ending invariant: a fragment ending in `'/'` squashes to a
string ending in `"/ "`, from either scan state. -/
theorem squash_ends (u : List Char) (hdeco : ∀ c ∈ u, deco c) :
    (∃ v, squashWs (spaceSeps (u ++ ['/'])) = v ++ ['/', ' ']) ∧
    (∃ v, squashWsRun (spaceSeps (u ++ ['/'])) = v ++ ['/', ' ']) := by
  induction u with
  | nil =>
    constructor
    · exact ⟨[' '], by rw [List.nil_append, squashWs_spaceSeps_slash]; rfl⟩
    · exact ⟨[' '], by rw [List.nil_append, squashWsRun_spaceSeps_slash]; rfl⟩
  | cons c u ih =>
    have hdu : ∀ x ∈ u, deco x := fun x hx => hdeco x (List.mem_cons_of_mem c hx)
    obtain ⟨⟨v1, hv1⟩, v2, hv2⟩ := ih hdu
    rcases hdeco c (List.mem_cons_self c u) with hc | hc | hc | hc
    · subst hc
      rw [List.cons_append,
        squashWs_spaceSeps_other '.' _ (by left; rfl) (by decide) (by decide),
        squashWsRun_spaceSeps_other '.' _ (by left; rfl) (by decide) (by decide), hv1]
      exact ⟨⟨'.' :: v1, rfl⟩, ⟨' ' :: '.' :: v1, rfl⟩⟩
    · subst hc
      rw [List.cons_append,
        squashWs_spaceSeps_other '-' _ (by right; left; rfl) (by decide) (by decide),
        squashWsRun_spaceSeps_other '-' _ (by right; left; rfl) (by decide) (by decide),
        hv1]
      exact ⟨⟨'-' :: v1, rfl⟩, ⟨' ' :: '-' :: v1, rfl⟩⟩
    · subst hc
      rw [List.cons_append, squashWs_spaceSeps_space, squashWsRun_spaceSeps_space, hv2]
      exact ⟨⟨v2, rfl⟩, ⟨v2, rfl⟩⟩
    · subst hc
      rw [List.cons_append, squashWs_spaceSeps_slash, squashWsRun_spaceSeps_slash, hv2]
      exact ⟨⟨' ' :: '/' :: v2, rfl⟩, ⟨' ' :: '/' :: v2, rfl⟩⟩

theorem band_left {a b : Bool} (h : (a && b) = true) : a = true := by
  cases a <;> cases b <;> simp_all

theorem band_right {a b : Bool} (h : (a && b) = true) : b = true := by
  cases a <;> cases b <;> simp_all

/-- The output of the separator squash relevant here: it ends in
`" / "`, or is exactly `"/ "`. -/
def endsSep (z : List Char) : Prop :=
  (∃ u, z = u ++ [' ', '/', ' ']) ∨ z = ['/', ' ']

theorem ends_cons (c a b : Char) (l u : List Char) (h : c :: l = u ++ [a, b]) :
    (u = [] ∧ c = a ∧ l = [b]) ∨ ∃ v, l = v ++ [a, b] := by
  cases u with
  | nil =>
    simp only [List.nil_append, List.cons.injEq] at h
    exact Or.inl ⟨rfl, h.1, h.2⟩
  | cons d u' =>
    simp only [List.cons_append, List.cons.injEq] at h
    exact Or.inr ⟨u', h.2⟩

theorem sqScan_eq_pair (t : List Char) (h : sqScan t = ['/', ' ']) :
    ∃ t', t = '/' :: t' := by
  cases t with
  | nil => simp [sqScan] at h
  | cons c t' =>
    by_cases hc : c = '/'
    · exact ⟨t', by rw [hc]⟩
    · rw [sqScan_other c t' hc] at h
      simp only [List.cons.injEq] at h
      exact absurd h.1 hc

/-- The central lemma about the separator squash: starting from any of
its states on a well-formed string ending in `"/ "`, the output ends in
`" / "` or is exactly `"/ "`. -/
theorem sq_ends_aux : ∀ n : ℕ, ∀ l : List Char, l.length ≤ n →
    ((∀ p : Bool, slashIso p l = true → (∃ u, l = u ++ ['/', ' ']) →
        endsSep (sqScan l)) ∧
     (slashIso true ('/' :: l) = true → (∃ u, '/' :: l = u ++ ['/', ' ']) →
        endsSep (sqSlash l)) ∧
     (slashIso true l = true → (∃ u, '/' :: ' ' :: l = u ++ ['/', ' ']) →
        endsSep (sqRep l))) := by
  intro n
  induction n with
  | zero =>
    intro l hl
    have hnil : l = [] := List.length_eq_zero.mp (Nat.le_zero.mp hl)
    subst hnil
    refine ⟨?_, ?_, ?_⟩
    · rintro p - ⟨u, hu⟩
      exact absurd hu (by simp)
    · rintro hIso -
      rw [slashIso_slash, slashAfter_nil] at hIso
      simp at hIso
    · rintro - -
      exact Or.inr rfl
  | succ n ih =>
    intro l hl
    refine ⟨?_, ?_, ?_⟩
    · -- scan state
      intro p hIso hEnd
      cases l with
      | nil =>
        obtain ⟨u, hu⟩ := hEnd
        exact absurd hu (by simp)
      | cons c t =>
        have hlt : t.length ≤ n := by
          simpa using Nat.le_of_succ_le_succ (by simpa using hl)
        by_cases hc : c = '/'
        · subst hc
          rw [sqScan_slash]
          rw [slashIso_slash] at hIso
          refine (ih t hlt).2.1 ?_ hEnd
          rw [slashIso_slash]
          simpa using band_right hIso
        · rw [sqScan_other c t hc]
          rw [slashIso_other p c t hc] at hIso
          obtain ⟨u, hu⟩ := hEnd
          rcases ends_cons c '/' ' ' t u hu with ⟨-, hca, -⟩ | ⟨v, hv⟩
          · exact absurd hca hc
          · rcases (ih t hlt).1 (c == ' ') hIso ⟨v, hv⟩ with ⟨w, hw⟩ | hw
            · exact Or.inl ⟨c :: w, by rw [hw, List.cons_append]⟩
            · obtain ⟨t', ht'⟩ := sqScan_eq_pair t hw
              have hsp : c = ' ' := by
                rw [ht', slashIso_slash] at hIso
                exact beq_iff_eq.mp (band_left hIso)
              subst hsp
              rw [hw]
              exact Or.inl ⟨[], rfl⟩
    · -- pending-slash state
      intro hIso hEnd
      cases l with
      | nil =>
        rw [slashIso_slash, slashAfter_nil] at hIso
        simp at hIso
      | cons c t =>
        have hlt : t.length ≤ n := by
          simpa using Nat.le_of_succ_le_succ (by simpa using hl)
        rw [slashIso_slash] at hIso
        have hAf := band_right hIso
        by_cases hc : c = ' '
        · subst hc
          rw [slashAfter_space] at hAf
          rw [sqSlash_space]
          exact (ih t hlt).2.2 hAf hEnd
        · rw [slashAfter_other c t hc] at hAf
          simp at hAf
    · -- repetition state
      intro hIso hEnd
      cases l with
      | nil => exact Or.inr rfl
      | cons c t =>
        have hlt : t.length ≤ n := by
          simpa using Nat.le_of_succ_le_succ (by simpa using hl)
        by_cases hc : c = '/'
        · subst hc
          rw [sqRep_slash]
          rw [slashIso_slash] at hIso
          have hAf := band_right hIso
          cases t with
          | nil =>
            rw [slashAfter_nil] at hAf
            simp at hAf
          | cons c2 t2 =>
            have hlt2 : t2.length ≤ n := by
              simp only [List.length_cons] at hl hlt ⊢
              omega
            by_cases hc2 : c2 = ' '
            · subst hc2
              rw [slashAfter_space] at hAf
              rw [sqRepSlash_space]
              refine (ih t2 hlt2).2.2 hAf ?_
              obtain ⟨u, hu⟩ := hEnd
              rcases ends_cons _ _ _ _ _ hu with ⟨-, -, habs⟩ | ⟨u1, hu1⟩
              · exact absurd habs (by simp)
              · rcases ends_cons _ _ _ _ _ hu1 with ⟨-, habs2, -⟩ | ⟨u2, hu2⟩
                · exact absurd habs2 (by decide)
                · exact ⟨u2, hu2⟩
            · rw [slashAfter_other c2 t2 hc2] at hAf
              simp at hAf
        · rw [sqRep_other c t hc]
          rw [slashIso_other true c t hc] at hIso
          obtain ⟨u, hu⟩ := hEnd
          have htEnd : ∃ v, c :: t = v ++ ['/', ' '] := by
            rcases ends_cons _ _ _ _ _ hu with ⟨-, -, habs⟩ | ⟨u1, hu1⟩
            · exact absurd habs (by simp)
            · rcases ends_cons _ _ _ _ _ hu1 with ⟨-, habs2, -⟩ | ⟨u2, hu2⟩
              · exact absurd habs2 (by decide)
              · exact ⟨u2, hu2⟩
          rcases ends_cons c '/' ' ' t _ htEnd.choose_spec with ⟨-, hca, -⟩ | ⟨v, hv⟩
          · exact absurd hca hc
          · rcases (ih t hlt).1 (c == ' ') hIso ⟨v, hv⟩ with ⟨w, hw⟩ | hw
            · exact Or.inl ⟨'/' :: ' ' :: c :: w, by simp [hw]⟩
            · obtain ⟨t', ht'⟩ := sqScan_eq_pair t hw
              have hsp : c = ' ' := by
                rw [ht', slashIso_slash] at hIso
                exact beq_iff_eq.mp (band_left hIso)
              subst hsp
              rw [hw]
              exact Or.inl ⟨['/', ' '], rfl⟩

theorem dropWhile_ends_slash (u : List Char) :
    ∃ v, (u ++ ['/']).dropWhile isWs = v ++ ['/'] := by
  induction u with
  | nil => exact ⟨[], by simp [List.dropWhile, isWs]⟩
  | cons c u ih =>
    by_cases hc : isWs c
    · obtain ⟨v, hv⟩ := ih
      exact ⟨v, by rw [List.cons_append, List.dropWhile_cons_of_pos hc, hv]⟩
    · exact ⟨c :: u, by
        rw [List.cons_append, List.dropWhile_cons_of_neg hc]⟩

theorem dropTrailingWs_slash_space (u : List Char) :
    dropTrailingWs (u ++ ['/', ' ']) = u ++ ['/'] := by
  unfold dropTrailingWs
  rw [show (u ++ ['/', ' ']).reverse = ' ' :: '/' :: u.reverse by simp,
    List.dropWhile_cons_of_pos (by decide : isWs ' ' = true),
    List.dropWhile_cons_of_neg (by decide : ¬ isWs '/' = true)]
  simp

theorem dropTrailingWs_slash (u : List Char) :
    dropTrailingWs (u ++ ['/']) = u ++ ['/'] := by
  unfold dropTrailingWs
  rw [show (u ++ ['/']).reverse = '/' :: u.reverse by simp,
    List.dropWhile_cons_of_neg (by decide : ¬ isWs '/' = true)]
  simp

theorem jsTrim_ends_slash (u : List Char) :
    ∃ v, jsTrim (u ++ ['/']) = v ++ ['/'] := by
  obtain ⟨v, hv⟩ := dropWhile_ends_slash u
  exact ⟨v, by rw [jsTrim, hv, dropTrailingWs_slash]⟩

theorem jsTrim_subset (l : List Char) : ∀ c ∈ jsTrim l, c ∈ l := by
  intro c hc
  unfold jsTrim dropTrailingWs at hc
  have h1 := (List.dropWhile_sublist (l := (l.dropWhile isWs).reverse) (p := isWs)).subset
  rw [List.mem_reverse] at hc
  have h2 := h1 hc
  rw [List.mem_reverse] at h2
  exact (List.dropWhile_sublist (p := isWs)).subset h2

theorem unifySep_of_deco (l : List Char) (h : ∀ c ∈ l, deco c) : unifySep l = l := by
  unfold unifySep
  induction l with
  | nil => rfl
  | cons c t ih =>
    rw [List.map_cons, if_neg (deco_not_pipe c (h c (List.mem_cons_self c t))),
      ih (fun x hx => h x (List.mem_cons_of_mem c hx))]

theorem dropWhile_endsSep (z : List Char) (h : endsSep z) :
    endsSep (z.dropWhile isWs) := by
  rcases h with ⟨u, hu⟩ | hz
  · subst hu
    induction u with
    | nil =>
      right
      simp [List.dropWhile, isWs]
    | cons c u ih =>
      by_cases hc : isWs c
      · rw [List.cons_append, List.dropWhile_cons_of_pos hc]
        exact ih
      · rw [List.cons_append, List.dropWhile_cons_of_neg hc]
        exact Or.inl ⟨c :: u, rfl⟩
  · subst hz
    right
    simp [List.dropWhile, isWs]

theorem map_dash_ends (f : Char → Char) (u : List Char)
    (h1 : f ' ' = ' ') (h2 : f '/' = '/') :
    List.map f (u ++ [' ', '/']) = List.map f u ++ [' ', '/'] := by
  simp [h1, h2]

/-- `tidyMorse` of a classifier fragment ending in `'/'` ends in `" /"`
(or is just `"/"`). -/
theorem tidyMorse_ends (m0 : List Char) (hdeco : ∀ c ∈ m0 ++ ['/'], deco c) :
    (∃ w, tidyMorse (m0 ++ ['/']) = w ++ [' ', '/']) ∨
      tidyMorse (m0 ++ ['/']) = ['/'] := by
  obtain ⟨v, hv⟩ := jsTrim_ends_slash m0
  have hvdeco : ∀ c ∈ v ++ ['/'], deco c := by
    intro c hc
    exact hdeco c (jsTrim_subset _ c (hv ▸ hc))
  have hiso := (squash_iso (v ++ ['/']) hvdeco).1
  obtain ⟨w1, hw1⟩ := (squash_ends v (fun c hc =>
    hvdeco c (List.mem_append_left _ hc))).1
  have hsq := (sq_ends_aux (squashWs (spaceSeps (v ++ ['/']))).length _ le_rfl).1
    true (hiso true) ⟨w1, hw1⟩
  have hdw := dropWhile_endsSep _ hsq
  unfold tidyMorse
  rw [hv, unifySep_of_deco _ hvdeco]
  rcases hdw with ⟨w2, hw2⟩ | hw2
  · rw [hw2, show w2 ++ [' ', '/', ' '] = (w2 ++ [' ', '/']) ++ [' '] by simp,
      show (w2 ++ [' ', '/']) ++ [' '] = (w2 ++ [' ']) ++ ['/', ' '] by simp,
      dropTrailingWs_slash_space,
      show (w2 ++ [' ']) ++ ['/'] = w2 ++ [' ', '/'] by simp,
      map_dash_ends _ w2 rfl rfl]
    exact Or.inl ⟨List.map _ w2, rfl⟩
  · rw [hw2, show (['/', ' '] : List Char) = [] ++ ['/', ' '] by simp,
      dropTrailingWs_slash_space]
    right
    rfl

theorem splitSp_ne_nil (l : List Char) : splitSp l ≠ [] := by
  cases l with
  | nil => simp [splitSp]
  | cons c t =>
    rw [splitSp]
    split <;> simp

theorem splitSp_length_two (u v : List Char) :
    2 ≤ (splitSp (u ++ ' ' :: v)).length := by
  induction u with
  | nil =>
    rw [List.nil_append, splitSp, if_pos rfl]
    have := splitSp_ne_nil v
    rw [List.length_cons]
    cases h : splitSp v with
    | nil => exact absurd h this
    | cons a r => simp
  | cons c u ih =>
    rw [List.cons_append, splitSp]
    split
    · rw [List.length_cons]
      have := splitSp_ne_nil (u ++ ' ' :: v)
      cases h : splitSp (u ++ ' ' :: v) with
      | nil => exact absurd h this
      | cons a r => simp
    · rw [List.length_cons, List.length_tail]
      omega

theorem splitSp_last (w : List Char) :
    (splitSp (w ++ [' ', '/'])).getLast? = some ['/'] := by
  induction w with
  | nil => decide
  | cons c w ih =>
    rw [List.cons_append, splitSp]
    have h2 := splitSp_length_two w ['/']
    split
    · cases h : splitSp (w ++ [' ', '/']) with
      | nil => exact absurd h (splitSp_ne_nil _)
      | cons a r =>
        rw [List.getLast?_cons_cons]
        rw [h] at ih
        exact ih
    · cases h : splitSp (w ++ [' ', '/']) with
      | nil => exact absurd h (splitSp_ne_nil _)
      | cons a r =>
        cases r with
        | nil => rw [h] at h2; simp at h2
        | cons b r' =>
          simp only [List.headD_cons, List.tail_cons]
          rw [List.getLast?_cons_cons]
          rw [h, List.getLast?_cons_cons] at ih
          exact ih

theorem getLast?_concat_form {α : Type} (l : List α) (a : α)
    (h : l.getLast? = some a) : ∃ pre, l = pre ++ [a] := by
  cases l with
  | nil => simp at h
  | cons x t =>
    refine ⟨(x :: t).dropLast, ?_⟩
    have hne : x :: t ≠ [] := by simp
    have := List.dropLast_append_getLast hne
    rw [List.getLast?_eq_getLast _ hne] at h
    simp only [Option.some.injEq] at h
    rw [h] at this
    exact this.symm

theorem morse2textStep_wordspace (r : Morse.TranslationResult) :
    (morse2textStep true r ['/']).message = r.message ++ [' '] := by
  unfold morse2textStep
  have hlook : morsepro2textLookup ['/'] = some [' '] := by decide
  rw [show (if true = true then morsepro2textLookup ['/']
        else morse2textLookup ['/']) = morsepro2textLookup ['/'] from rfl, hlook]

/-- A classifier fragment ending in `'/'` always translates to a message
ending in `' '` (the word-space token is the last token of the tidied
fragment, and it maps to a space). -/
theorem morse2text_message_ends (m0 : List Char)
    (hdeco : ∀ c ∈ m0 ++ ['/'], deco c) :
    ∃ v, (morse2text (m0 ++ ['/']) true).message = v ++ [' '] := by
  unfold morse2text
  rcases tidyMorse_ends m0 hdeco with ⟨w, hw⟩ | hw <;> rw [hw]
  · rw [if_neg (by simp)]
    obtain ⟨pre, hpre⟩ := getLast?_concat_form _ _ (splitSp_last w)
    rw [hpre, List.foldl_append, List.foldl_cons, List.foldl_nil]
    refine ⟨(List.foldl (morse2textStep true) ⟨[], [], false⟩ pre).message, ?_⟩
    show (morse2textFinish _).message = _
    unfold morse2textFinish
    exact morse2textStep_wordspace _
  · rw [if_neg (by simp)]
    refine ⟨[], ?_⟩
    show (morse2textFinish _).message = _
    rw [show splitSp ['/'] = [['/']] by decide, List.foldl_cons, List.foldl_nil]
    unfold morse2textFinish
    exact morse2textStep_wordspace _

end Morse

namespace MorseDecoder

/-- Every character a classification step appends is one of the four
classifier characters. -/
theorem timings2morseStep_deco (s : MorseDecoder) (acc : List Char) (d : ℚ)
    (h : ∀ c ∈ acc, Morse.deco c) :
    ∀ c ∈ (timings2morseStep (s, acc) d).2, Morse.deco c := by
  intro c hc
  unfold timings2morseStep at hc
  by_cases h0 : 0 < d <;>
    simp only [h0, if_true, if_false, reduceIte] at hc <;>
    rcases List.mem_append.mp hc with h1 | h1
  · exact h c h1
  · revert h1
    split <;> intro h1 <;> rw [List.mem_singleton] at h1 <;> subst h1 <;> decide
  · exact h c h1
  · revert h1
    split
    · intro h1; exact absurd h1 (List.not_mem_nil c)
    · split <;> intro h1 <;> rw [List.mem_singleton] at h1 <;> subst h1 <;> decide

theorem timings2morse_deco (times : List ℚ) :
    ∀ (s : MorseDecoder) (acc : List Char), (∀ c ∈ acc, Morse.deco c) →
      ∀ c ∈ (times.foldl timings2morseStep (s, acc)).2, Morse.deco c := by
  induction times with
  | nil => intro s acc h; exact h
  | cons d t ih =>
    intro s acc h
    rw [List.foldl_cons]
    have hstep := timings2morseStep_deco s acc d h
    rcases hp : timings2morseStep (s, acc) d with ⟨s', acc'⟩
    rw [hp] at hstep
    exact ih s' acc' hstep

theorem flushShift_message (s : MorseDecoder) : (flushShift s).message = s.message := by
  unfold flushShift; split <;> rfl

theorem flushShift_noiseThreshold (s : MorseDecoder) :
    (flushShift s).noiseThreshold = s.noiseThreshold := by
  unfold flushShift; split <;> rfl

/-- `flush` never changes the two thresholds of the base decoder. -/
theorem flush_thresholds (s : MorseDecoder) :
    (flush s).1.ditDahThreshold = s.ditDahThreshold ∧
    (flush s).1.dahSpaceThreshold = s.dahSpaceThreshold := by
  unfold flush flushCore
  rcases hL : (flushShift s).unusedTimes.getLast? with _ | last
  · exact ⟨flushShift_ditDahThreshold s, flushShift_dahSpaceThreshold s⟩
  · simp only
    set buf := if last < 0 ∧ -last < (flushShift s).dahSpaceThreshold
      then (flushShift s).unusedTimes.dropLast else (flushShift s).unusedTimes with hbuf
    have hp := timings2morse_preserves buf (flushShift s) []
    constructor
    · show (List.foldl timings2morseStep (flushShift s, []) buf).1.ditDahThreshold = _
      rw [hp.1, flushShift_ditDahThreshold]
    · show (List.foldl timings2morseStep (flushShift s, []) buf).1.dahSpaceThreshold = _
      rw [hp.2.1, flushShift_dahSpaceThreshold]

/-- The shape of the buffer after any `flush`. -/
theorem flush_buffer_shape (s : MorseDecoder) :
    (flush s).1.unusedTimes = [] ∨ ∃ x, x < 0 ∧ (flush s).1.unusedTimes = [x] := by
  unfold flush flushCore
  rcases hL : (flushShift s).unusedTimes.getLast? with _ | last
  · left
    exact List.getLast?_eq_none_iff.mp hL
  · simp only
    split
    · exact Or.inr ⟨last, by assumption, rfl⟩
    · exact Or.inl rfl

/-- If a `flush` retains a word-space silence, the accumulated message
now ends with a space (the silence was classified as `'/'` and the
translation of a fragment ending in `'/'` ends in `' '`). -/
theorem flush_retained_wordspace (s : MorseDecoder) (x : ℚ)
    (hthr : s.ditDahThreshold ≤ s.dahSpaceThreshold)
    (hbuf : (flush s).1.unusedTimes = [x])
    (hws : s.dahSpaceThreshold ≤ -x) :
    (flush s).1.message.getLast? = some ' ' := by
  unfold flush flushCore at hbuf ⊢
  rcases hL : (flushShift s).unusedTimes.getLast? with _ | last
  · rw [hL] at hbuf
    simp only at hbuf
    have : (flushShift s).unusedTimes = [] := List.getLast?_eq_none_iff.mp hL
    rw [this] at hbuf
    exact absurd hbuf (by simp)
  · rw [hL] at hbuf
    simp only at hbuf ⊢
    have hlast : last < 0 ∧ last = x := by
      by_cases hneg : last < 0
      · refine ⟨hneg, ?_⟩
        rw [if_pos hneg] at hbuf
        simpa using hbuf
      · rw [if_neg hneg] at hbuf
        exact absurd hbuf (by simp)
    obtain ⟨hneg, rfl⟩ := hlast
    have hnopop : ¬ (last < 0 ∧ -last < (flushShift s).dahSpaceThreshold) := by
      rw [flushShift_dahSpaceThreshold]
      rintro ⟨-, hc⟩
      exact absurd hws (not_le.mpr hc)
    rw [if_neg hnopop]
    obtain ⟨B, hB⟩ := Morse.getLast?_concat_form _ _ hL
    show ((timings2morse (flushShift s) _).1.message ++
      (Morse.morse2text (timings2morse (flushShift s) _).2 true).message).getLast? =
        some ' '
    rw [hB]
    unfold timings2morse
    rw [List.foldl_append]
    rcases hq : List.foldl timings2morseStep (flushShift s, []) B with ⟨sB, accB⟩
    have hsB := timings2morse_preserves B (flushShift s) []
    rw [hq] at hsB
    have hstep : (List.foldl timings2morseStep (sB, accB) [last]).2 =
        accB ++ ['/'] := by
      simp only [List.foldl_cons, List.foldl_nil]
      unfold timings2morseStep
      have h0 : ¬ (0 < last) := not_lt.mpr (le_of_lt hneg)
      have h1 : ¬ (-last < sB.ditDahThreshold) := by
        rw [hsB.1, flushShift_ditDahThreshold]
        exact not_lt.mpr (le_trans hthr hws)
      have h2 : ¬ (-last < sB.dahSpaceThreshold) := by
        rw [hsB.2.1, flushShift_dahSpaceThreshold]
        exact not_lt.mpr hws
      simp only [h0, h1, h2, if_false, reduceIte]
    have hdeco : ∀ c ∈ accB ++ ['/'], Morse.deco c := by
      rw [← hstep]
      exact timings2morse_deco [last] sB accB
        (by
          have := timings2morse_deco B (flushShift s) [] (by intro c hc; simp at hc)
          rw [hq] at this
          exact this)
    obtain ⟨v, hv⟩ := Morse.morse2text_message_ends accB (by simpa using hdeco)
    rw [hstep, hv]
    rw [show (List.foldl timings2morseStep (sB, accB) [last]).1.message =
        s.message from by
      have h := timings2morse_preserves [last] sB accB
      rw [h.2.2.2.1, hsB.2.2.2.1, flushShift_message]]
    rw [← List.append_assoc, List.getLast?_concat]

end MorseDecoder

namespace MorseDecoder

theorem flushCore_of_empty (s : MorseDecoder) (h : s.unusedTimes = []) :
    flushCore s = (s, none) := by
  unfold flushCore
  rw [h]
  rfl

theorem flushShift_empty_of_empty (s : MorseDecoder) (h : s.unusedTimes = []) :
    (flushShift s).unusedTimes = [] := by
  unfold flushShift
  split <;> simp [h]

/-- A flush of a buffer holding a single short silence classifies and
translates nothing and emits the empty event. -/
theorem flushCore_short_silence (s : MorseDecoder) (x : ℚ)
    (hbuf : s.unusedTimes = [x]) (hx : x < 0)
    (hpop : -x < s.dahSpaceThreshold) :
    (flushCore s).1.morse = s.morse ∧ (flushCore s).1.message = s.message ∧
    (flushCore s).2 = some ⟨[], [], []⟩ := by
  unfold flushCore
  rw [hbuf]
  simp only [List.getLast?_singleton]
  rw [(by rw [if_pos ⟨hx, hpop⟩]; rfl :
    (if x < 0 ∧ -x < s.dahSpaceThreshold
      then List.dropLast [x] else [x]) = ([] : List ℚ))]
  exact ⟨List.append_nil _, List.append_nil _, rfl⟩

end MorseDecoder

/-- C5: flushing twice in a row leaves the morse and message accumulators
of the first flush unchanged; the second flush either does not fire the
message callback at all or fires it with an entirely empty event. -/
theorem flush_idempotent_on_accumulators (s : MorseDecoder)
    (h : s.ditDahThreshold ≤ s.dahSpaceThreshold) :
    (MorseDecoder.flush (MorseDecoder.flush s).1).1.morse =
      (MorseDecoder.flush s).1.morse ∧
    (MorseDecoder.flush (MorseDecoder.flush s).1).1.message =
      (MorseDecoder.flush s).1.message ∧
    ((MorseDecoder.flush (MorseDecoder.flush s).1).2 = none ∨
      (MorseDecoder.flush (MorseDecoder.flush s).1).2 = some ⟨[], [], []⟩) := by
  have flush_eq : ∀ t : MorseDecoder,
      MorseDecoder.flush t = MorseDecoder.flushCore (MorseDecoder.flushShift t) :=
    fun _ => rfl
  rcases MorseDecoder.flush_buffer_shape s with hbuf | ⟨x, hx, hbuf⟩
  · have hsh := MorseDecoder.flushShift_empty_of_empty (MorseDecoder.flush s).1 hbuf
    have hc := MorseDecoder.flushCore_of_empty _ hsh
    rw [flush_eq ((MorseDecoder.flush s).1), hc]
    exact ⟨MorseDecoder.flushShift_morse _, MorseDecoder.flushShift_message _,
      Or.inl rfl⟩
  · by_cases hmsg : (MorseDecoder.flush s).1.message.getLast? = some ' '
    · have hcond : (MorseDecoder.flush s).1.message.getLast?.getD 'x' = ' ' ∧
          (MorseDecoder.flush s).1.unusedTimes.head?.getD 0 < 0 := by
        rw [hmsg, hbuf]
        exact ⟨rfl, hx⟩
      have hsh : (MorseDecoder.flushShift (MorseDecoder.flush s).1).unusedTimes = [] := by
        unfold MorseDecoder.flushShift
        rw [if_pos hcond]
        show (MorseDecoder.flush s).1.unusedTimes.tail = []
        rw [hbuf]
        rfl
      have hc := MorseDecoder.flushCore_of_empty _ hsh
      rw [flush_eq ((MorseDecoder.flush s).1), hc]
      exact ⟨MorseDecoder.flushShift_morse _, MorseDecoder.flushShift_message _,
        Or.inl rfl⟩
    · have hnc : ¬ ((MorseDecoder.flush s).1.message.getLast?.getD 'x' = ' ' ∧
          (MorseDecoder.flush s).1.unusedTimes.head?.getD 0 < 0) := by
        rintro ⟨h1, -⟩
        apply hmsg
        cases hm : (MorseDecoder.flush s).1.message.getLast? with
        | none => rw [hm] at h1; exact absurd h1 (by decide)
        | some c => rw [hm] at h1; rw [Option.getD_some] at h1; rw [h1]
      have hsh : MorseDecoder.flushShift (MorseDecoder.flush s).1 =
          (MorseDecoder.flush s).1 := by
        unfold MorseDecoder.flushShift
        rw [if_neg hnc]
      by_cases hpop : -x < (MorseDecoder.flush s).1.dahSpaceThreshold
      · have hc := MorseDecoder.flushCore_short_silence (MorseDecoder.flush s).1 x
          hbuf hx hpop
        rw [flush_eq ((MorseDecoder.flush s).1), hsh]
        exact ⟨hc.1, hc.2.1, Or.inr hc.2.2⟩
      · exfalso
        apply hmsg
        apply MorseDecoder.flush_retained_wordspace s x h hbuf
        rw [← (MorseDecoder.flush_thresholds s).2]
        exact le_of_not_lt hpop

/-- Witness for C5: the double-flush property at a fresh 20 wpm decoder,
whose thresholds are 120 and 300. -/
theorem flush_idempotent_on_accumulators_witness :
    (MorseDecoder.new (some 20) (some 20)).ditDahThreshold ≤
      (MorseDecoder.new (some 20) (some 20)).dahSpaceThreshold ∧
    ((MorseDecoder.flush
        (MorseDecoder.flush (MorseDecoder.new (some 20) (some 20))).1).1.morse =
      (MorseDecoder.flush (MorseDecoder.new (some 20) (some 20))).1.morse ∧
    (MorseDecoder.flush
        (MorseDecoder.flush (MorseDecoder.new (some 20) (some 20))).1).1.message =
      (MorseDecoder.flush (MorseDecoder.new (some 20) (some 20))).1.message ∧
    ((MorseDecoder.flush
        (MorseDecoder.flush (MorseDecoder.new (some 20) (some 20))).1).2 = none ∨
      (MorseDecoder.flush
        (MorseDecoder.flush (MorseDecoder.new (some 20) (some 20))).1).2 =
        some ⟨[], [], []⟩)) :=
  ⟨by with_unfolding_all decide,
   flush_idempotent_on_accumulators (MorseDecoder.new (some 20) (some 20))
     (by with_unfolding_all decide)⟩
